import Mathlib

/-!
Verification of the codesave archive/namespacing engine (`codesave/base.py`).

Texts are modelled as `List Char`, archive entry paths as `List String`
(the segments of the slash-separated entry name; joining with `"/"` and
re-splitting is the identity on such segment lists, and `prefix + "/" + name`
is `pre :: segments`).  Entry contents are modelled as `Option (List Char)`:
`some t` stands for a byte string that UTF-8-decodes to the text `t`, and
`none` for bytes that raise on decoding.  Fallible Python code (IndexError,
KeyError, UnicodeDecodeError, assertions) is modelled with `Except`.
-/

/-- Python's `str.replace(old, new)` on `List Char`, with explicit fuel so that
the definition is structurally recursive and computable by the kernel.  The
scan is left to right; after a match the scan resumes after the replaced
occurrence (the replacement text is not rescanned). -/
def pyReplaceFuel (old new : List Char) : Nat → List Char → List Char
  | _, [] => []
  | 0, s => s
  | fuel+1, c :: rest =>
    if old <+: c :: rest then
      new ++ pyReplaceFuel old new fuel ((c :: rest).drop old.length)
    else
      c :: pyReplaceFuel old new fuel rest

/-- Python's `str.replace(old, new)`: replaces every occurrence of `old`
left to right.  An empty `old` inserts `new` at every position, as in Python. -/
def pyReplace (old new s : List Char) : List Char :=
  if old = [] then new ++ (s.map (fun c => c :: new)).flatten
  else pyReplaceFuel old new s.length s

/-- The three textual replacement pairs `_fix_all_imports` registers for one
library: `"import <op> "`, `"import <op>."` and `"from <op>."` are mapped to
the same forms built from the new pattern (base.py lines 404-409). -/
def libChanges (new_pattern old_pattern : List Char → List Char)
    (library : List Char) : List (List Char × List Char) :=
  [("import ".data ++ old_pattern library ++ " ".data,
    "import ".data ++ new_pattern library ++ " ".data),
   ("import ".data ++ old_pattern library ++ ".".data,
    "import ".data ++ new_pattern library ++ ".".data),
   ("from ".data ++ old_pattern library ++ ".".data,
    "from ".data ++ new_pattern library ++ ".".data)]

/-- One iteration of the final loop of `_fix_all_imports`:
`new_s = new_s.replace(old_string, new_string)`. -/
def applyChange (s : List Char) (change : List Char × List Char) : List Char :=
  pyReplace change.1 change.2 s

/-- Shallow embedding of `_fix_all_imports` (base.py lines 397-414): build the
list `all_changes` of replacement pairs for all libraries in order, then apply
the replacements sequentially to the text. -/
def fix_all_imports (original_text : List Char) (libraries : List (List Char))
    (new_pattern : List Char → List Char)
    (old_pattern : List Char → List Char) : List Char :=
  (libraries.flatMap (libChanges new_pattern old_pattern)).foldl
    applyChange original_text

/-- The instantiation of `_fix_all_imports` used by `create_unique_zip`
(base.py lines 158-163): `new_pattern` maps `library` to
`"<prefix>.<library>"` and `old_pattern` is the identity. -/
def fixImportsWithPre (pre : List Char) (libraries : List (List Char))
    (text : List Char) : List Char :=
  fix_all_imports text libraries (fun library => pre ++ '.' :: library)
    (fun library => library)

/-- Application of all three replacements of a single library, in their
registration order.  `fix_all_imports` is the left fold of this action over
the library list. -/
def applyLib (new_pattern old_pattern : List Char → List Char)
    (s library : List Char) : List Char :=
  (libChanges new_pattern old_pattern library).foldl applyChange s

/-- A string made only of characters that are neither the space nor the dot
delimiter used by the import-rewriting patterns. -/
def DelimFree (s : List Char) : Prop := ∀ c ∈ s, c ≠ ' ' ∧ c ≠ '.'

/-- A nonempty delimiter-free string: the shape of a path segment or of a
top-level importable name. -/
def IsIdent (s : List Char) : Prop := s ≠ [] ∧ DelimFree s

/-- No shifted alignment: at no strict suffix position of `u` does `p` start,
whether the occurrence would lie inside `u` or run past its end.  Formally,
for every `k < u.length`, `p` and `u.drop k` are prefix-incomparable. -/
def NoCross (p u : List Char) : Prop :=
  ∀ k, k < u.length → ¬ (p <+: u.drop k) ∧ ¬ (u.drop k <+: p)

/-- The hypotheses under which one library commutes with every other in the
rewriting pass of `create_unique_zip`: the name is a nonempty space/dot-free
identifier, differs from the namespace prefix, and does not have the pattern
keywords `import` or `from` as a suffix (so its patterns cannot straddle the
patterns of another library). -/
def GoodLib (pre lib : List Char) : Prop :=
  IsIdent lib ∧ lib ≠ pre ∧
    ¬ ("import".data <:+ lib) ∧ ¬ ("from".data <:+ lib)

instance (s : List Char) : Decidable (DelimFree s) := by
  unfold DelimFree
  infer_instance

instance (s : List Char) : Decidable (IsIdent s) := by
  unfold IsIdent
  infer_instance

instance (pre lib : List Char) : Decidable (GoodLib pre lib) := by
  unfold GoodLib
  infer_instance

instance (p u : List Char) : Decidable (NoCross p u) := by
  unfold NoCross
  infer_instance

/-- An archive entry: the slash-separated entry name as its list of path
segments, and the entry's bytes (`some t` when the bytes UTF-8-decode to the
text `t`, `none` when decoding raises `UnicodeDecodeError`). -/
structure ZEntry where
  filename : List String
  data : Option (List Char)
  deriving DecidableEq

/-- Python's `info.filename.endswith(".py")` in the path-segment model: the
final segment of the joined name carries the suffix.  `endswith` is suffix
testing, modelled on the character list of the segment. -/
def endsWithPy (p : List String) : Bool :=
  match p.getLast? with
  | some s => ".py".data.isSuffixOf s.data
  | none => false

/-- One iteration of the copy loop of `create_unique_zip` (base.py lines
150-164) on one input entry: the entry is relocated under the prefix; a
non-`.py` entry is copied verbatim when `save_non_code`; otherwise the bytes
are decoded (`none` aborts the pass) and the text is rewritten with
`_fix_all_imports`. -/
def uzStep (pre : String) (libraries : List (List Char)) (save_non_code : Bool)
    (e : ZEntry) : Option ZEntry :=
  if !(endsWithPy (pre :: e.filename)) && save_non_code then
    some ⟨pre :: e.filename, e.data⟩
  else
    match e.data with
    | none => none
    | some s => some ⟨pre :: e.filename, some (fixImportsWithPre pre.data libraries s)⟩

/-- The copy loop of `create_unique_zip` over the whole input entry list.  On
a decode failure the loop raises; the `.error` value carries the entries that
were already written to the output archive (which zipfile leaves on disk at
the final output path). -/
def uzWriteLoop (pre : String) (libraries : List (List Char))
    (save_non_code : Bool) : List ZEntry → Except (List ZEntry) (List ZEntry)
  | [] => .ok []
  | e :: rest =>
    match uzStep pre libraries save_non_code e with
    | none => .error []
    | some e2 =>
      match uzWriteLoop pre libraries save_non_code rest with
      | .ok out => .ok (e2 :: out)
      | .error pout => .error (e2 :: pout)

/-- The marker names `"/".join(all_parts[:i] + ["__init__.py"])` generated for
one output file name, for `i in range(1, len(all_parts) - 1)` (base.py lines
173-177). -/
def initsFor (file : List String) : List (List String) :=
  (List.range' 1 (file.length - 2)).map (fun i => file.take i ++ ["__init__.py"])

/-- The `necessary_inits` set of `create_unique_zip` (base.py lines 168-177):
marker names collected over every `.py` output name. -/
def necessaryInits (files : List (List String)) : List (List String) :=
  ((files.filter (fun f => endsWithPy f)).flatMap initsFor).dedup

/-- The `add_init` phase of `create_unique_zip` (base.py lines 166-181): an
empty entry is appended for every necessary marker name not already present
in the output archive. -/
def addInitEntries (out : List ZEntry) : List ZEntry :=
  let names := out.map (fun e => e.filename)
  out ++ ((necessaryInits names).filter (fun i => !(names.contains i))).map
    (fun i => ⟨i, some []⟩)

/-- Shallow embedding of `create_unique_zip` (base.py lines 111-183) acting on
the entry list of the input archive, with the prefix already resolved and the
library names already read.  The output archive is written directly at the
final output path; a decode failure aborts the pass and the `.error` value is
the entry list left on disk at that path. -/
def create_unique_zip (pre : String) (libraries : List (List Char))
    (save_non_code add_init : Bool) (input : List ZEntry) :
    Except (List ZEntry) (List ZEntry) :=
  match uzWriteLoop pre libraries save_non_code input with
  | .error pout => .error pout
  | .ok out => .ok (if add_init then addInitEntries out else out)

/-- Python's `str.split(sep)` for a one-character separator: `""` splits to
`[""]`, and every separator occurrence opens a new (possibly empty) field. -/
def splitOnChar (sep : Char) : List Char → List (List Char)
  | [] => [[]]
  | c :: rest =>
    match splitOnChar sep rest with
    | [] => [[c]]
    | h :: t => if c = sep then [] :: h :: t else (c :: h) :: t

/-- Joining path segments with `"/"`, as `str` of a path does, producing the
character list of the joined name. -/
def joinSlash (segs : List String) : List Char :=
  (String.intercalate "/" segs).data

/-- Shallow embedding of `_get_library_names` (base.py lines 417-427):
`f.split("/")[index].replace(".py", "")` for every name containing `".py"`,
deduplicated (`list(set(...))`, modelled in first-occurrence order).  The
index access is modelled totally with `getD` because every caller uses an
index that is in range for its inputs. -/
def get_library_names (all_fnames : List (List Char)) (index : Nat) :
    List (List Char) :=
  ((all_fnames.filter (fun f => ".py".data <:+: f)).map
    (fun f => pyReplace ".py".data [] ((splitOnChar '/' f).getD index []))).dedup

/-- The library-name derivation of `create_zip` when `library_names is None`
(base.py lines 89-91): `main_dir.glob("**/*.py")` yields absolute paths
(the staging directory is absolute), each converted with `str` and fed to
`_get_library_names(..., index=0)`.  `main_dir` is given as the segment list
of the absolute staging path (leading `""` segment for the root slash), and
`staging_py_files` as the staged `.py` files relative to it. -/
def create_zip_library_names (main_dir : List String)
    (staging_py_files : List (List String)) : List (List Char) :=
  get_library_names (staging_py_files.map (fun rel => joinSlash (main_dir ++ rel))) 0

/-- The `valid_libraries` comprehension of `Codebase.__init__` (base.py lines
239-247): for every name containing `".py"`, the guard additionally indexes
`f.split("/")[1]`, which raises `IndexError` when the name has no slash; the
mapped value is `f.replace(".py", "").split("/")[0]`, and the comprehension
result is passed through `list(set(...))` (modelled in first-occurrence
order). -/
def codebase_valid_libraries : List (List Char) → Except Unit (List (List Char))
  | [] => .ok []
  | f :: rest =>
    if ".py".data <:+: f then
      match (splitOnChar '/' f).get? 1 with
      | none => .error ()
      | some seg =>
        if ¬ ("__init__".data <:+: seg) then
          match codebase_valid_libraries rest with
          | .error e => .error e
          | .ok out =>
            .ok ((splitOnChar '/' (pyReplace ".py".data [] f)).getD 0 [] :: out)
        else codebase_valid_libraries rest
    else codebase_valid_libraries rest

/-- Shallow embedding of `Codebase.__init__` (base.py lines 234-259): the
`valid_libraries` comprehension runs first; only if it succeeds is the zip
inserted at the front of `sys.path`.  The result pairs the deduplicated
library list with the updated search path. -/
def codebase_init (all_files : List (List Char)) (zip_name : String)
    (sys_path : List String) :
    Except Unit (List (List Char) × List String) :=
  match codebase_valid_libraries all_files with
  | .error e => .error e
  | .ok libs => .ok (libs.dedup, zip_name :: sys_path)

/-- Errors of `change_launcher`: the argument-count assertion, and the
`KeyError` raised by `zf.read` on a missing member. -/
inductive LauncherErr where
  | usageError
  | keyError
  deriving DecidableEq

/-- Python's `zf.read(name)`: with duplicate names, `zipfile`'s name table is
built in order and later entries win, so the last match is read. -/
def zipRead (zip : List ZEntry) (name : List String) : Option ZEntry :=
  (zip.filter (fun e => e.filename = name)).getLast?

/-- Shallow embedding of `change_launcher` (base.py lines 185-211).  The
result is the archive left at `zip_file`'s path: on the usage assertion the
input is untouched; after the removal rewrite a failing internal read leaves
the rewritten archive (without `__main__.py`) on disk.  On success the new
`__main__.py` is appended after all remaining entries. -/
def change_launcher (zip : List ZEntry) (external_path : Option (Option (List Char)))
    (internal_path : Option (List String)) (module_name : Option (List Char)) :
    Except (LauncherErr × List ZEntry) (List ZEntry) :=
  if (external_path.toList.length + module_name.toList.length +
      internal_path.toList.length) ≠ 1 then
    .error (.usageError, zip)
  else
    let zip2 := if (zip.map (fun e => e.filename)).contains ["__main__.py"] then
        zip.filter (fun e => e.filename ≠ ["__main__.py"])
      else zip
    match external_path with
    | some b => .ok (zip2 ++ [⟨["__main__.py"], b⟩])
    | none =>
      match internal_path with
      | some p =>
        match zipRead zip2 p with
        | none => .error (.keyError, zip2)
        | some e => .ok (zip2 ++ [⟨["__main__.py"], e.data⟩])
      | none =>
        match module_name with
        | some m =>
          .ok (zip2 ++ [⟨["__main__.py"],
            some ("import runpy; runpy.run_module(\"".data ++ m ++ "\")".data)⟩])
        | none => .error (.usageError, zip)

/-- Import-time failures surfaced by the loaders: a module that cannot be
imported, an assertion failure. -/
inductive PyErr where
  | importError
  | assertionError
  deriving DecidableEq

/-- The module environment a `UniqueCodebase` runs against, with abstract
values named by strings: `mods` maps fully qualified module names to module
values (`importlib.import_module`), and `attrs` maps (module value, attribute
name) to values (`getattr`). -/
structure PyEnv where
  mods : List (String × String)
  attrs : List ((String × String) × String)

/-- Shallow embedding of `UniqueCodebase.import_module` (base.py lines
342-347): resolve `"<library_name>.<name>"`, raising when absent. -/
def import_module (env : PyEnv) (library_name name : String) :
    Except PyErr String :=
  match env.mods.lookup (library_name ++ "." ++ name) with
  | some v => .ok v
  | none => .error .importError

/-- Python's `getattr(module, thing)` in the abstract environment. -/
def getattrOf (env : PyEnv) (module thing : String) : Option String :=
  env.attrs.lookup (module, thing)

/-- The keys of a Python dict built from a key list: duplicates collapse onto
their first occurrence, preserving insertion order. -/
def pyDictKeys (l : List String) : List String :=
  l.foldl (fun acc k => if acc.contains k then acc else acc ++ [k]) []

/-- The value `from_import` binds for one requested member (base.py lines
377-380): attribute lookup on the module, and on any failure the fallback
`self.import_module(name + "." + thing)` whose own failure propagates. -/
def resolveMember (env : PyEnv) (library_name name modval thing : String) :
    Except PyErr String :=
  match getattrOf env modval thing with
  | some v => .ok v
  | none => import_module env library_name (name ++ "." ++ thing)

/-- The possible returns of `from_import`: the bound value itself when the
loop bound exactly one value, else the list of bound values. -/
inductive FromImportRet where
  | single (v : String)
  | listed (vs : List String)
  deriving DecidableEq

/-- The member loop of `from_import` over the dict items. -/
def fromImportLoop (env : PyEnv) (library_name name modval : String) :
    List String → Except PyErr (List String)
  | [] => .ok []
  | thing :: rest =>
    match resolveMember env library_name name modval thing with
    | .error e => .error e
    | .ok v =>
      match fromImportLoop env library_name name modval rest with
      | .error e => .error e
      | .ok vs => .ok (v :: vs)

/-- Shallow embedding of `UniqueCodebase.from_import` (base.py lines 363-384).
The module is imported first; `things_to_import` (already a list) is turned
into the dict `as_` — `{alias: thing}` under the length-1 assertion when an
alias is given, else `{t: t for t in things}` whose keys deduplicate — and
each member is bound by attribute lookup with a submodule-import fallback.
The single bound value is returned when exactly one value was bound, else the
list of bound values. -/
def from_import (env : PyEnv) (library_name name : String)
    (things_to_import : List String) (asOpt : Option String) :
    Except PyErr FromImportRet :=
  match import_module env library_name name with
  | .error e => .error e
  | .ok modval =>
    match asOpt with
    | some _ =>
      if things_to_import.length ≠ 1 then .error .assertionError
      else
        match fromImportLoop env library_name name modval
            (things_to_import.take 1) with
        | .error e => .error e
        | .ok vs =>
          match vs with
          | [v] => .ok (.single v)
          | _ => .ok (.listed vs)
    | none =>
      match fromImportLoop env library_name name modval
          (pyDictKeys things_to_import) with
      | .error e => .error e
      | .ok vs =>
        match vs with
        | [v] => .ok (.single v)
        | _ => .ok (.listed vs)

/-- A pattern delimiter: the space or dot that terminates every replacement
pattern of `_fix_all_imports`. -/
def isDelim (c : Char) : Prop := c = ' ' ∨ c = '.'

instance (c : Char) : Decidable (isDelim c) := by
  unfold isDelim
  infer_instance

/-- A string assembled from delimiter-terminated tokens followed by a tail:
`chainStr [(t1, d1), (t2, d2)] r = t1 ++ d1 :: t2 ++ d2 :: r`.  Every pattern
and replacement of the Import Rewriter, and every text the amended claims
quantify over, has this shape with delimiter-free tokens. -/
def chainStr : List (List Char × Char) → List Char → List Char
  | [], tail => tail
  | (tok, d) :: rest, tail => tok ++ d :: chainStr rest tail

/-- Specification-side restatement of the claimed `from_import` contract,
written from the claim's words: import module `name`; for each requested
member (in request order, without collapsing duplicates) bind the attribute
if present, else fall back to importing `name.<member>`; return the single
resolved value when exactly one member was requested, else the list of
resolved values in request order. -/
def from_import_spec (env : PyEnv) (library_name name : String)
    (things_to_import : List String) : Except PyErr FromImportRet :=
  match import_module env library_name name with
  | .error e => .error e
  | .ok modval =>
    match fromImportLoop env library_name name modval things_to_import with
    | .error e => .error e
    | .ok vs =>
      if things_to_import.length = 1 then
        match vs with
        | [v] => .ok (.single v)
        | _ => .ok (.listed vs)
      else .ok (.listed vs)

/-! ### Basic properties of `pyReplace` -/

theorem pyReplaceFuel_nil (old new : List Char) (f : Nat) :
    pyReplaceFuel old new f [] = [] := by
  cases f <;> rfl

theorem pyReplaceFuel_fuel_eq (old new : List Char) (ho : old ≠ []) :
    ∀ f g s, s.length ≤ f → s.length ≤ g →
      pyReplaceFuel old new f s = pyReplaceFuel old new g s := by
  intro f
  induction f with
  | zero =>
    intro g s hf _
    have : s = [] := List.eq_nil_of_length_eq_zero (Nat.le_zero.mp hf)
    subst this
    rw [pyReplaceFuel_nil, pyReplaceFuel_nil]
  | succ f ih =>
    intro g s hf hg
    match s, g with
    | [], _ => rw [pyReplaceFuel_nil, pyReplaceFuel_nil]
    | c :: rest, 0 => simp at hg
    | c :: rest, g + 1 =>
      have hol : 1 ≤ old.length := by
        cases old with
        | nil => exact absurd rfl ho
        | cons o os => simp
      simp only [pyReplaceFuel]
      by_cases hpre : old <+: c :: rest
      · simp only [if_pos hpre]
        have hdl : ((c :: rest).drop old.length).length ≤ rest.length := by
          simp only [List.length_drop, List.length_cons]
          omega
        rw [ih g ((c :: rest).drop old.length)
          (le_trans hdl (Nat.le_of_succ_le_succ hf))
          (le_trans hdl (Nat.le_of_succ_le_succ hg))]
      · simp only [if_neg hpre]
        rw [ih g rest (Nat.le_of_succ_le_succ hf) (Nat.le_of_succ_le_succ hg)]

theorem pyReplace_nil (old new : List Char) :
    pyReplace old new [] = if old = [] then new else [] := by
  by_cases h : old = [] <;> simp [pyReplace, h, pyReplaceFuel]

theorem pyReplace_of_pos {old : List Char} (new : List Char) {s : List Char}
    (ho : old ≠ []) (h : old <+: s) (hs : s ≠ []) :
    pyReplace old new s = new ++ pyReplace old new (s.drop old.length) := by
  match s with
  | [] => exact absurd rfl hs
  | c :: rest =>
    have hol : 1 ≤ old.length := by
      cases old with
      | nil => exact absurd rfl ho
      | cons o os => simp
    simp only [pyReplace, if_neg ho, List.length_cons, pyReplaceFuel, if_pos h]
    congr 1
    have hdl : ((c :: rest).drop old.length).length ≤ rest.length := by
      simp only [List.length_drop, List.length_cons]
      omega
    exact pyReplaceFuel_fuel_eq old new ho rest.length _ _ hdl (le_refl _)

theorem pyReplace_cons_of_neg {old : List Char} (new : List Char) {c : Char}
    {rest : List Char} (ho : old ≠ []) (h : ¬ old <+: c :: rest) :
    pyReplace old new (c :: rest) = c :: pyReplace old new rest := by
  simp only [pyReplace, if_neg ho, List.length_cons, pyReplaceFuel, if_neg h]

theorem pyReplace_skip_all {old : List Char} (new : List Char) :
    ∀ {s : List Char}, ¬ old <:+: s → pyReplace old new s = s := by
  intro s
  induction s with
  | nil =>
    intro h
    have ho : old ≠ [] := by
      intro he
      subst he
      exact h (List.nil_infix)
    simp [pyReplace_nil, ho]
  | cons c rest ih =>
    intro h
    have ho : old ≠ [] := by
      intro he
      subst he
      exact h (List.nil_infix)
    have hpre : ¬ old <+: c :: rest := fun hp => h hp.isInfix
    rw [pyReplace_cons_of_neg new ho hpre, ih (fun hi => h (List.infix_cons hi))]

theorem not_infix_of_count_lt {p s : List Char} {ch : Char}
    (h : s.count ch < p.count ch) : ¬ p <:+: s := by
  intro hinf
  exact absurd (hinf.sublist.count_le ch) (by omega)

theorem prefix_append_cases {p u t : List Char} (h : p <+: u ++ t) :
    p <+: u ∨ u <+: p :=
  List.prefix_or_prefix_of_prefix h (List.prefix_append u t)

theorem eq_append_drop_of_prefix {p s : List Char} (h : p <+: s) :
    s = p ++ s.drop p.length := by
  obtain ⟨t, rfl⟩ := h
  simp

/-! ### Concrete counterexamples and bug evaluations -/

/-- C1 counterexample: with prefix `p` and the library set containing the
names `a` and `p` (a library name equal to the prefix), the two processing
orders of the same library set rewrite `"import a x"` differently: the order
`[a, p]` yields `"import p.p.a x"` while `[p, a]` yields `"import p.a x"`,
because the replacement text written for `a` contains the pattern
`"import p."` of the library `p`. -/
theorem c1_order_dependence_counterexample :
    ["a".data, "p".data].Perm ["p".data, "a".data] ∧
    fixImportsWithPre "p".data ["a".data, "p".data] "import a x".data =
      "import p.p.a x".data ∧
    fixImportsWithPre "p".data ["p".data, "a".data] "import a x".data =
      "import p.a x".data ∧
    fixImportsWithPre "p".data ["a".data, "p".data] "import a x".data ≠
      fixImportsWithPre "p".data ["p".data, "a".data] "import a x".data := by
  refine ⟨by decide, by decide, by decide, by decide⟩

/-- C3 counterexample: with mapping `foo -> ns.foo`, the statement
`"from foo import bar"` and the newline-terminated bare `"import foo\n"` are
both left completely unchanged by `_fix_all_imports` (no replacement pattern
matches them), so the rewritten text never references `ns.foo`, contradicting
the claim that every textual import statement referencing `foo` — including
these two forms — is rewritten to the qualified name. -/
theorem c3_missed_forms_counterexample :
    fixImportsWithPre "ns".data ["foo".data] "from foo import bar".data =
      "from foo import bar".data ∧
    ¬ ("ns.foo".data <:+:
        fixImportsWithPre "ns".data ["foo".data] "from foo import bar".data) ∧
    fixImportsWithPre "ns".data ["foo".data]
        ("import foo".data ++ ['\n']) = "import foo".data ++ ['\n'] ∧
    ¬ ("ns.foo".data <:+:
        fixImportsWithPre "ns".data ["foo".data] ("import foo".data ++ ['\n'])) := by
  refine ⟨by decide, by decide, by decide, by decide⟩

/-- C6 bug evaluation: `create_zip` passes the absolute path strings of
`main_dir.glob("**/*.py")` to `_get_library_names(..., index=0)`, so for a
staging root `/tmp/tmpx` holding the single top-level source file `foo.py`
the derived manifest is `[""]` — the empty segment before the leading slash —
and not `["foo"]` as the claim (and the docstring of `_get_library_names`,
which expects paths relative to the current directory) requires. -/
theorem c6_library_names_bug :
    create_zip_library_names ["", "tmp", "tmpx"] [["foo.py"]] = [[]] ∧
    create_zip_library_names ["", "tmp", "tmpx"] [["foo.py"]] ≠ ["foo".data] := by
  refine ⟨by decide, by decide⟩

/-- C8 counterexample: `create_unique_zip` opens the output archive for
writing directly at the final output path; here the first input entry (a
non-source file, copied verbatim) is written, the second entry is a source
entry whose bytes do not decode, and the aborted pass leaves the non-empty
partial archive `[pre/data.txt]` at the final output path. -/
theorem c8_partial_output_counterexample :
    create_unique_zip "pre" [] true true
        [⟨["data.txt"], none⟩, ⟨["bad.py"], none⟩] =
      .error [(⟨["pre", "data.txt"], none⟩ : ZEntry)] ∧
    [(⟨["pre", "data.txt"], none⟩ : ZEntry)] ≠ ([] : List ZEntry) := by
  refine ⟨by rfl, by decide⟩

/-- C9 counterexample: `from_import` builds the dict `{t: t for t in things}`,
which collapses duplicate member names; requesting the two members
`["a", "a"]` therefore binds a single value and returns it bare (the
`len(ret) == 1` branch), not a list of the resolved values in request order
as the claim states for the case of more than one requested member. -/
theorem c9_duplicate_members_counterexample :
    from_import ⟨[("cb.m", "modM")], [(("modM", "a"), "va")]⟩ "cb" "m"
        ["a", "a"] none = .ok (.single "va") ∧
    (["a", "a"] : List String).length ≠ 1 := by
  refine ⟨by rfl, by decide⟩

/-- C10 counterexample: promoting the internal member `__main__.py` to the
entry point on an archive that contains it is a usage with exactly one source
given, yet `change_launcher` first rewrites the archive without `__main__.py`
and only then reads the internal member from the rewritten archive, so the
read raises `KeyError` and the archive left on disk is empty — it contains no
entry-point member at all, contradicting the claimed postcondition. -/
theorem c10_internal_promote_counterexample :
    change_launcher [⟨["__main__.py"], some "old".data⟩]
        none (some ["__main__.py"]) none = .error (.keyError, []) := by
  rfl

/-! ### Properties of `splitOnChar` and claim C7 -/

theorem splitOnChar_ne_nil (sep : Char) (s : List Char) :
    splitOnChar sep s ≠ [] := by
  cases s with
  | nil => simp [splitOnChar]
  | cons c rest =>
    simp only [splitOnChar]
    match h : splitOnChar sep rest with
    | [] => simp
    | hh :: t =>
      by_cases hc : c = sep <;> simp [hc]

theorem splitOnChar_of_not_mem {sep : Char} {s : List Char} (h : sep ∉ s) :
    splitOnChar sep s = [s] := by
  induction s with
  | nil => rfl
  | cons c rest ih =>
    have hc : c ≠ sep := fun he => h (he ▸ List.mem_cons_self c rest)
    have hr : sep ∉ rest := fun hm => h (List.mem_cons_of_mem c hm)
    simp only [splitOnChar, ih hr]
    simp [hc]

theorem two_le_splitOnChar_length_of_mem {sep : Char} {s : List Char}
    (h : sep ∈ s) : 2 ≤ (splitOnChar sep s).length := by
  induction s with
  | nil => simp at h
  | cons c rest ih =>
    simp only [splitOnChar]
    match hs : splitOnChar sep rest with
    | [] => exact absurd hs (splitOnChar_ne_nil sep rest)
    | hh :: t =>
      by_cases hc : c = sep
      · simp [hc]
      · have hr : sep ∈ rest := by
          rcases List.mem_cons.mp h with he | hm
          · exact absurd he.symm hc
          · exact hm
        have := ih hr
        rw [hs] at this
        simp only [List.length_cons] at this ⊢
        simp [hc]
        omega

theorem codebase_valid_libraries_error {all_files : List (List Char)}
    (h : ∃ f ∈ all_files, ".py".data <:+: f ∧ '/' ∉ f) :
    codebase_valid_libraries all_files = .error () := by
  induction all_files with
  | nil => simp at h
  | cons g rest ih =>
    obtain ⟨f, hf, hpy, hsl⟩ := h
    simp only [codebase_valid_libraries]
    rcases List.mem_cons.mp hf with he | hm
    · subst he
      rw [if_pos hpy]
      have hsplit : splitOnChar '/' f = [f] := splitOnChar_of_not_mem hsl
      rw [hsplit]
      rfl
    · have ihe := ih ⟨f, hm, hpy, hsl⟩
      by_cases hg : ".py".data <:+: g
      · rw [if_pos hg]
        cases hq : (splitOnChar '/' g).get? 1 with
        | none => rfl
        | some seg =>
          dsimp only
          by_cases hseg : ¬ ("__init__".data <:+: seg)
          · rw [if_pos hseg, ihe]
          · rw [if_neg hseg]
            exact ihe
      · rw [if_neg hg]
        exact ihe

/-- C7: for every archive name list containing a top-level entry whose name
contains `".py"` and no `"/"` (such as the `__main__.py` that `create_zip`
always injects), `Codebase.__init__` raises an uncaught `IndexError` while
computing `valid_libraries` — the guard indexes `f.split("/")[1]`, which does
not exist for a slash-free name — and this happens before the archive is
inserted into `sys.path`, which the `Except.error` result (carrying no
updated search path) captures. -/
theorem c7_codebase_init_index_error
    (all_files : List (List Char)) (zip_name : String) (sys_path : List String)
    (h : ∃ f ∈ all_files, ".py".data <:+: f ∧ '/' ∉ f) :
    codebase_init all_files zip_name sys_path = .error () := by
  unfold codebase_init
  rw [codebase_valid_libraries_error h]

/-- Witness for C7 at the archive from `create_zip`, whose name list contains
the top-level `__main__.py` entry. -/
theorem c7_codebase_init_index_error_witness :
    (∃ f ∈ ["src/a.py".data, "__main__.py".data],
      ".py".data <:+: f ∧ '/' ∉ f) ∧
    codebase_init ["src/a.py".data, "__main__.py".data] "codebase.zip" [] =
      .error () :=
  ⟨by decide, c7_codebase_init_index_error _ _ _ (by decide)⟩

/-! ### Structure of `create_unique_zip` output names (claims C5, C4) -/

theorem uzStep_filename {pre : String} {libraries : List (List Char)}
    {snc : Bool} {e e2 : ZEntry}
    (h : uzStep pre libraries snc e = some e2) :
    e2.filename = pre :: e.filename := by
  unfold uzStep at h
  by_cases hc : (!(endsWithPy (pre :: e.filename)) && snc) = true
  · rw [if_pos hc] at h
    injection h with h
    rw [← h]
  · rw [if_neg hc] at h
    cases hd : e.data with
    | none => rw [hd] at h; cases h
    | some s =>
      rw [hd] at h
      injection h with h
      rw [← h]

theorem uzWriteLoop_ok_head {pre : String} {libraries : List (List Char)}
    {snc : Bool} :
    ∀ {input out : List ZEntry},
      uzWriteLoop pre libraries snc input = .ok out →
      ∀ e2 ∈ out, e2.filename.head? = some pre := by
  intro input
  induction input with
  | nil =>
    intro out h
    injection h with h
    subst h
    intro e2 he2
    simp at he2
  | cons e rest ih =>
    intro out h e2 he2
    unfold uzWriteLoop at h
    cases hs : uzStep pre libraries snc e with
    | none => rw [hs] at h; cases h
    | some e1 =>
      rw [hs] at h
      cases hr : uzWriteLoop pre libraries snc rest with
      | error pout => rw [hr] at h; cases h
      | ok out1 =>
        rw [hr] at h
        injection h with h
        subst h
        rcases List.mem_cons.mp he2 with he | hm
        · subst he
          rw [uzStep_filename hs]
          rfl
        · exact ih hr e2 hm

theorem mem_necessaryInits {files : List (List String)} {n : List String}
    (h : n ∈ necessaryInits files) :
    ∃ f ∈ files, endsWithPy f = true ∧
      ∃ k, 1 ≤ k ∧ k ≤ f.length - 2 ∧ n = f.take k ++ ["__init__.py"] := by
  unfold necessaryInits at h
  rw [List.mem_dedup, List.mem_flatMap] at h
  obtain ⟨f, hf, hn⟩ := h
  rw [List.mem_filter] at hf
  obtain ⟨hff, hpy⟩ := hf
  unfold initsFor at hn
  rw [List.mem_map] at hn
  obtain ⟨k, hk, rfl⟩ := hn
  rw [List.mem_range'] at hk
  obtain ⟨i, hi, hki⟩ := hk
  exact ⟨f, hff, hpy, k, by omega, by omega, rfl⟩

theorem necessaryInits_mem {files : List (List String)} {f : List String} {k : Nat}
    (hf : f ∈ files) (hpy : endsWithPy f = true)
    (h1 : 1 ≤ k) (h2 : k ≤ f.length - 2) :
    f.take k ++ ["__init__.py"] ∈ necessaryInits files := by
  unfold necessaryInits
  rw [List.mem_dedup, List.mem_flatMap]
  refine ⟨f, List.mem_filter.mpr ⟨hf, hpy⟩, ?_⟩
  unfold initsFor
  rw [List.mem_map]
  exact ⟨k, List.mem_range'.mpr ⟨k - 1, by omega, by omega⟩, rfl⟩

theorem mem_addInitEntries_of_mem {out : List ZEntry} {e : ZEntry}
    (h : e ∈ out) : e ∈ addInitEntries out := by
  unfold addInitEntries
  exact List.mem_append_left _ h

theorem marker_mem_addInitEntries {out : List ZEntry} {n : List String}
    (h : n ∈ necessaryInits (out.map (fun e => e.filename))) :
    ∃ e2 ∈ addInitEntries out, e2.filename = n := by
  by_cases hc : ((out.map (fun e => e.filename)).contains n) = true
  · rw [List.contains_eq_any_beq] at hc
    simp only [List.any_eq_true, beq_iff_eq] at hc
    obtain ⟨n2, hn2, he⟩ := hc
    rw [List.mem_map] at hn2
    obtain ⟨e2, he2, hf⟩ := hn2
    exact ⟨e2, mem_addInitEntries_of_mem he2, by rw [hf, he]⟩
  · refine ⟨⟨n, some []⟩, ?_, rfl⟩
    unfold addInitEntries
    refine List.mem_append_right _ ?_
    rw [List.mem_map]
    refine ⟨n, List.mem_filter.mpr ⟨h, ?_⟩, rfl⟩
    simp only [Bool.not_eq_eq_eq_not, Bool.not_true]
    exact Bool.of_not_eq_true hc

theorem mem_addInitEntries_cases {out : List ZEntry} {e : ZEntry}
    (h : e ∈ addInitEntries out) :
    e ∈ out ∨ e.filename ∈ necessaryInits (out.map (fun e2 => e2.filename)) := by
  unfold addInitEntries at h
  rcases List.mem_append.mp h with hl | hr
  · exact Or.inl hl
  · rw [List.mem_map] at hr
    obtain ⟨n, hn, rfl⟩ := hr
    exact Or.inr (List.mem_filter.mp hn).1

theorem head?_take_append {f : List String} {x : String} {k : Nat}
    (hk : 1 ≤ k) (hh : f.head? = some x) (B : List String) :
    (f.take k ++ B).head? = some x := by
  cases f with
  | nil => simp at hh
  | cons a f2 =>
    cases k with
    | zero => omega
    | succ k2 =>
      simp only [List.take_succ_cons, List.cons_append, List.head?_cons]
      simpa using hh

/-- C5: every entry of an archive produced by `create_unique_zip` — relocated
input entries and synthesized package-marker entries alike — has the resolved
prefix as its first path segment; consequently two archives produced with
distinct prefixes have disjoint entry-path sets. -/
theorem c5_prefix_invariant :
    (∀ (pre : String) (libraries : List (List Char)) (snc ai : Bool)
        (input out : List ZEntry),
        create_unique_zip pre libraries snc ai input = .ok out →
        ∀ e ∈ out, e.filename.head? = some pre) ∧
    (∀ (pre1 pre2 : String) (libraries1 libraries2 : List (List Char))
        (snc1 snc2 ai1 ai2 : Bool) (input1 input2 out1 out2 : List ZEntry),
        pre1 ≠ pre2 →
        create_unique_zip pre1 libraries1 snc1 ai1 input1 = .ok out1 →
        create_unique_zip pre2 libraries2 snc2 ai2 input2 = .ok out2 →
        ∀ e1 ∈ out1, ∀ e2 ∈ out2, e1.filename ≠ e2.filename) := by
  have main : ∀ (pre : String) (libraries : List (List Char)) (snc ai : Bool)
      (input out : List ZEntry),
      create_unique_zip pre libraries snc ai input = .ok out →
      ∀ e ∈ out, e.filename.head? = some pre := by
    intro pre libraries snc ai input out h e he
    unfold create_unique_zip at h
    cases hw : uzWriteLoop pre libraries snc input with
    | error pout => rw [hw] at h; cases h
    | ok out0 =>
      rw [hw] at h
      injection h with h
      subst h
      cases ai with
      | false =>
        rw [if_neg (by decide)] at he
        exact uzWriteLoop_ok_head hw e he
      | true =>
        rw [if_pos rfl] at he
        rcases mem_addInitEntries_cases he with h0 | hmk
        · exact uzWriteLoop_ok_head hw e h0
        · obtain ⟨f, hf, _, k, hk1, _, hface⟩ := mem_necessaryInits hmk
          obtain ⟨e0, he0, rfl⟩ := List.mem_map.mp hf
          rw [hface]
          exact head?_take_append hk1 (uzWriteLoop_ok_head hw e0 he0) _
  refine ⟨main, ?_⟩
  intro pre1 pre2 libraries1 libraries2 snc1 snc2 ai1 ai2 input1 input2
    out1 out2 hne h1 h2 e1 he1 e2 he2 heq
  have hh1 := main pre1 libraries1 snc1 ai1 input1 out1 h1 e1 he1
  have hh2 := main pre2 libraries2 snc2 ai2 input2 out2 h2 e2 he2
  rw [heq, hh2] at hh1
  exact hne (Option.some.inj hh1).symm

/-- Witness for C5 on two concrete namespacings of the same input with the
distinct prefixes `p1` and `p2`. -/
theorem c5_prefix_invariant_witness :
    (∀ e ∈ ([⟨["p1", "pkg", "a.py"], some []⟩, ⟨["p1", "__init__.py"], some []⟩] :
        List ZEntry), e.filename.head? = some "p1") ∧
    (∀ e1 ∈ ([⟨["p1", "pkg", "a.py"], some []⟩, ⟨["p1", "__init__.py"], some []⟩] :
        List ZEntry),
      ∀ e2 ∈ ([⟨["p2", "pkg", "a.py"], some []⟩, ⟨["p2", "__init__.py"], some []⟩] :
        List ZEntry), e1.filename ≠ e2.filename) :=
  ⟨c5_prefix_invariant.1 "p1" [] true true [⟨["pkg", "a.py"], some []⟩] _ (by rfl),
   c5_prefix_invariant.2 "p1" "p2" [] [] true true true true
     [⟨["pkg", "a.py"], some []⟩] [⟨["pkg", "a.py"], some []⟩] _ _
     (by decide) (by rfl) (by rfl)⟩

/-- C4: in the archive produced by `create_unique_zip` with `add_init`
enabled, for every source (`.py`) entry path and every strict ancestor
directory from the prefix directory down to — and excluding — the entry's own
directory (`take i` of the path for `1 ≤ i ≤ length - 2`), the archive
contains an entry at the package-marker name of that directory, either a
pre-existing entry or a synthesized empty marker. -/
theorem c4_package_marker_completeness
    (pre : String) (libraries : List (List Char)) (snc : Bool)
    (input out : List ZEntry)
    (h : create_unique_zip pre libraries snc true input = .ok out) :
    ∀ e ∈ out, endsWithPy e.filename = true →
      ∀ i, 1 ≤ i → i + 2 ≤ e.filename.length →
        ∃ e2 ∈ out, e2.filename = e.filename.take i ++ ["__init__.py"] := by
  intro e he hpy i h1 h2
  unfold create_unique_zip at h
  cases hw : uzWriteLoop pre libraries snc input with
  | error pout => rw [hw] at h; cases h
  | ok out0 =>
    rw [hw] at h
    injection h with h
    subst h
    rw [if_pos rfl] at he ⊢
    rcases mem_addInitEntries_cases he with h0 | hmk
    · exact marker_mem_addInitEntries
        (necessaryInits_mem (List.mem_map_of_mem _ h0) hpy h1 (by omega))
    · obtain ⟨f, hf, hfpy, k, hk1, hk2, hface⟩ := mem_necessaryInits hmk
      have hfl : 3 ≤ f.length := by omega
      have hlen : e.filename.length = k + 1 := by
        rw [hface]
        simp only [List.length_append, List.length_take, List.length_cons,
          List.length_nil]
        omega
      have htake : e.filename.take i = f.take i := by
        rw [hface, List.take_append_of_le_length
          (by simp only [List.length_take]; omega), List.take_take]
        congr 1
        omega
      rw [htake]
      exact marker_mem_addInitEntries (necessaryInits_mem hf hfpy h1 (by omega))

/-- Witness for C4 on a concrete namespacing with a depth-two source entry:
both strict-ancestor markers are present in the output. -/
theorem c4_package_marker_completeness_witness :
    ∃ e2 ∈ ([⟨["p", "pkg", "sub", "a.py"], some []⟩, ⟨["p", "__init__.py"], some []⟩,
        ⟨["p", "pkg", "__init__.py"], some []⟩] : List ZEntry),
      e2.filename =
        (["p", "pkg", "sub", "a.py"] : List String).take 2 ++ ["__init__.py"] :=
  c4_package_marker_completeness "p" [] true [⟨["pkg", "sub", "a.py"], some []⟩] _
    (by rfl) ⟨["p", "pkg", "sub", "a.py"], some []⟩ (by decide) (by decide)
    2 (by decide) (by decide)

/-! ### Claims C8, C9, C10 -/

/-- C8 (amended): `create_unique_zip` opens the output archive for writing
directly at the final output path — there is no temporary-file-then-rename
step — so when a source entry fails to decode partway through, the pass
aborts and exactly the entries processed before the failing one are left on
disk at the final output path. -/
theorem c8_direct_write_amended
    (pre : String) (libraries : List (List Char)) (snc ai : Bool)
    (good : List ZEntry) (bad : ZEntry) (rest : List ZEntry)
    (hgood : ∀ e ∈ good, (uzStep pre libraries snc e).isSome = true)
    (hbad : uzStep pre libraries snc bad = none) :
    create_unique_zip pre libraries snc ai (good ++ bad :: rest) =
      .error (good.filterMap (uzStep pre libraries snc)) := by
  unfold create_unique_zip
  suffices h : uzWriteLoop pre libraries snc (good ++ bad :: rest) =
      .error (good.filterMap (uzStep pre libraries snc)) by
    rw [h]
  induction good with
  | nil =>
    simp only [List.nil_append, List.filterMap_nil]
    unfold uzWriteLoop
    rw [hbad]
  | cons e g ih =>
    have he : (uzStep pre libraries snc e).isSome = true :=
      hgood e (List.mem_cons_self e g)
    cases hs : uzStep pre libraries snc e with
    | none => rw [hs] at he; cases he
    | some e2 =>
      simp only [List.cons_append]
      unfold uzWriteLoop
      rw [hs, ih (fun x hx => hgood x (List.mem_cons_of_mem e hx)),
        List.filterMap_cons, hs]

/-- Witness for C8 (amended) at a concrete archive whose second entry is an
undecodable source entry. -/
theorem c8_direct_write_amended_witness :
    (∀ e ∈ ([⟨["data.txt"], none⟩] : List ZEntry),
      (uzStep "q" [] true e).isSome = true) ∧
    create_unique_zip "q" [] true true
        ([⟨["data.txt"], none⟩] ++ (⟨["bad.py"], none⟩ : ZEntry) :: []) =
      .error (([⟨["data.txt"], none⟩] : List ZEntry).filterMap (uzStep "q" [] true)) :=
  ⟨by decide, c8_direct_write_amended "q" [] true true
    [⟨["data.txt"], none⟩] ⟨["bad.py"], none⟩ [] (by decide) (by rfl)⟩

theorem pyDictKeys_foldl (l : List String) :
    ∀ acc : List String, l.Nodup → (∀ k ∈ l, k ∉ acc) →
      List.foldl (fun acc k => if acc.contains k then acc else acc ++ [k]) acc l =
        acc ++ l := by
  induction l with
  | nil => intro acc _ _; simp
  | cons k rest ih =>
    intro acc hnd hdisj
    have hnd2 := List.nodup_cons.mp hnd
    simp only [List.foldl_cons]
    have hk : ¬ (acc.contains k = true) := by
      intro hc
      rw [List.contains_eq_any_beq] at hc
      simp only [List.any_eq_true, beq_iff_eq] at hc
      obtain ⟨k2, hk2, he⟩ := hc
      exact hdisj k (List.mem_cons_self k rest) (he ▸ hk2)
    rw [if_neg hk, ih (acc ++ [k]) hnd2.2 ?_]
    · simp
    · intro k2 hk2 hmem
      rcases List.mem_append.mp hmem with hma | hmk
      · exact hdisj k2 (List.mem_cons_of_mem k hk2) hma
      · rw [List.mem_singleton] at hmk
        exact hnd2.1 (hmk ▸ hk2)

theorem pyDictKeys_of_nodup {l : List String} (h : l.Nodup) : pyDictKeys l = l := by
  unfold pyDictKeys
  rw [pyDictKeys_foldl l [] h (by simp)]
  simp

theorem fromImportLoop_ok_length {env : PyEnv} {library_name name modval : String} :
    ∀ {things : List String} {vs : List String},
      fromImportLoop env library_name name modval things = .ok vs →
      vs.length = things.length := by
  intro things
  induction things with
  | nil =>
    intro vs h
    injection h with h
    rw [← h]
  | cons t rest ih =>
    intro vs h
    unfold fromImportLoop at h
    cases hres : resolveMember env library_name name modval t with
    | error e => rw [hres] at h; cases h
    | ok v =>
      rw [hres] at h
      cases hr : fromImportLoop env library_name name modval rest with
      | error e => rw [hr] at h; cases h
      | ok vs2 =>
        rw [hr] at h
        injection h with h
        rw [← h]
        simp [ih hr]

/-- C9 (amended): for pairwise-distinct requested members, `from_import`
imports module `name`, binds each member by attribute lookup with a silent
fallback to importing `name.<member>` as a submodule, and returns the single
resolved value when exactly one member was requested, else the list of
resolved values in request order — that is, it implements the claimed
contract `from_import_spec`.  (For duplicate member names the dict
`{t: t for t in things}` collapses the request list first, which is the
correction to the original claim.) -/
theorem c9_from_import_amended (env : PyEnv) (library_name name : String)
    (things : List String) (h : things.Nodup) :
    from_import env library_name name things none =
      from_import_spec env library_name name things := by
  unfold from_import from_import_spec
  cases import_module env library_name name with
  | error e => rfl
  | ok modval =>
    dsimp only
    rw [pyDictKeys_of_nodup h]
    cases hl : fromImportLoop env library_name name modval things with
    | error e => rfl
    | ok vs =>
      have hlen := fromImportLoop_ok_length hl
      dsimp only
      cases vs with
      | nil =>
        simp only [List.length_nil] at hlen
        rw [if_neg (by omega)]
      | cons v vs2 =>
        cases vs2 with
        | nil =>
          simp only [List.length_cons, List.length_nil] at hlen
          rw [if_pos (by omega)]
        | cons w vs3 =>
          simp only [List.length_cons] at hlen
          rw [if_neg (by omega)]

/-- Witness for C9 (amended) at a concrete environment and two distinct
members, one resolved as an attribute and one as a submodule. -/
theorem c9_from_import_amended_witness :
    (["a", "b"] : List String).Nodup ∧
    from_import ⟨[("cb.m", "modM"), ("cb.m.b", "modB")], [(("modM", "a"), "va")]⟩
        "cb" "m" ["a", "b"] none =
      from_import_spec ⟨[("cb.m", "modM"), ("cb.m.b", "modB")],
        [(("modM", "a"), "va")]⟩ "cb" "m" ["a", "b"] :=
  ⟨by decide, c9_from_import_amended _ "cb" "m" ["a", "b"] (by decide)⟩

theorem launcher_filter_eq
    (zip : List ZEntry) :
    (if (zip.map (fun e => e.filename)).contains ["__main__.py"] then
        zip.filter (fun e => e.filename ≠ ["__main__.py"])
      else zip) =
      zip.filter (fun e => e.filename ≠ ["__main__.py"]) := by
  by_cases hc : ((zip.map (fun e => e.filename)).contains ["__main__.py"]) = true
  · rw [if_pos hc]
  · rw [if_neg hc]
    symm
    rw [List.filter_eq_self]
    intro e he
    simp only [decide_eq_true_eq]
    intro hmain
    apply hc
    rw [List.contains_eq_any_beq]
    simp only [List.any_eq_true, beq_iff_eq]
    exact ⟨e.filename, List.mem_map_of_mem _ he, hmain.symm⟩

theorem zipRead_filter_ne {zip : List ZEntry} {p : List String}
    (hp : p ≠ ["__main__.py"]) :
    zipRead (zip.filter (fun e => e.filename ≠ ["__main__.py"])) p =
      zipRead zip p := by
  unfold zipRead
  congr 1
  rw [List.filter_filter]
  apply List.filter_congr
  intro e _
  by_cases he : e.filename = p
  · simp [he, hp]
  · simp [he]

/-- C10 (amended): `change_launcher` fails with the usage assertion, leaving
the archive untouched, when the number of given sources differs from one;
when exactly one source is given — and, in the internal-member case, a member
exists at the given path after entry-point removal, i.e. the path is not the
entry-point name itself (the uncorrected claim fails there, since the member
is read only after the removal rewrite) — the resulting archive is the input
without any entry-point member, followed by a single new entry-point member
whose content is the specified source; hence it has exactly one entry-point
member with that content, and every other entry is unchanged. -/
theorem c10_change_launcher_amended :
    (∀ (zip : List ZEntry) (ext : Option (Option (List Char)))
        (ip : Option (List String)) (mn : Option (List Char)),
        ext.toList.length + mn.toList.length + ip.toList.length ≠ 1 →
        change_launcher zip ext ip mn = .error (.usageError, zip)) ∧
    (∀ (zip : List ZEntry) (b : Option (List Char)),
        change_launcher zip (some b) none none =
          .ok (zip.filter (fun e => e.filename ≠ ["__main__.py"]) ++
            [⟨["__main__.py"], b⟩])) ∧
    (∀ (zip : List ZEntry) (p : List String) (e0 : ZEntry),
        p ≠ ["__main__.py"] → zipRead zip p = some e0 →
        change_launcher zip none (some p) none =
          .ok (zip.filter (fun e => e.filename ≠ ["__main__.py"]) ++
            [⟨["__main__.py"], e0.data⟩])) ∧
    (∀ (zip : List ZEntry) (m : List Char),
        change_launcher zip none none (some m) =
          .ok (zip.filter (fun e => e.filename ≠ ["__main__.py"]) ++
            [⟨["__main__.py"],
              some ("import runpy; runpy.run_module(\"".data ++ m ++ "\")".data)⟩])) ∧
    (∀ (zip out : List ZEntry) (content : Option (List Char)),
        out = zip.filter (fun e => e.filename ≠ ["__main__.py"]) ++
            [⟨["__main__.py"], content⟩] →
        out.filter (fun e => e.filename = ["__main__.py"]) =
            [⟨["__main__.py"], content⟩] ∧
          out.filter (fun e => e.filename ≠ ["__main__.py"]) =
            zip.filter (fun e => e.filename ≠ ["__main__.py"])) := by
  refine ⟨?_, ?_, ?_, ?_, ?_⟩
  · intro zip ext ip mn h
    unfold change_launcher
    rw [if_pos h]
  · intro zip b
    unfold change_launcher
    rw [if_neg (by simp)]
    dsimp only
    rw [launcher_filter_eq]
  · intro zip p e0 hp hread
    unfold change_launcher
    rw [if_neg (by simp)]
    dsimp only
    rw [launcher_filter_eq, zipRead_filter_ne hp, hread]
  · intro zip m
    unfold change_launcher
    rw [if_neg (by simp)]
    dsimp only
    rw [launcher_filter_eq]
  · intro zip out content hout
    subst hout
    refine ⟨?_, ?_⟩
    · rw [List.filter_append, List.filter_filter]
      have h1 : (zip.filter fun e =>
          decide (e.filename = ["__main__.py"]) && decide (e.filename ≠ ["__main__.py"])) =
          zip.filter (fun _ => false) := by
        apply List.filter_congr
        intro e _
        by_cases he : e.filename = ["__main__.py"] <;> simp [he]
      rw [h1, List.filter_false]
      simp
    · rw [List.filter_append, List.filter_filter]
      have h2 : ∀ e ∈ zip,
          (decide (e.filename ≠ ["__main__.py"]) &&
            decide (e.filename ≠ ["__main__.py"])) =
            decide (e.filename ≠ ["__main__.py"]) :=
        fun e _ => Bool.and_self _
      rw [List.filter_congr h2]
      simp

/-- Witness for C10 (amended): the usage-error clause with no source given,
and the internal-member clause promoting an existing non-entry-point member,
on a concrete archive. -/
theorem c10_change_launcher_amended_witness :
    change_launcher ([⟨["lib", "x.py"], some []⟩, ⟨["__main__.py"], some "o".data⟩] :
        List ZEntry) none none none =
      .error (.usageError,
        [⟨["lib", "x.py"], some []⟩, ⟨["__main__.py"], some "o".data⟩]) ∧
    change_launcher ([⟨["lib", "x.py"], some []⟩, ⟨["__main__.py"], some "o".data⟩] :
        List ZEntry) none (some ["lib", "x.py"]) none =
      .ok (([⟨["lib", "x.py"], some []⟩, ⟨["__main__.py"], some "o".data⟩] :
          List ZEntry).filter (fun e => e.filename ≠ ["__main__.py"]) ++
        [⟨["__main__.py"], some []⟩]) :=
  ⟨c10_change_launcher_amended.1 _ none none none (by decide),
   c10_change_launcher_amended.2.2.1 _ ["lib", "x.py"] ⟨["lib", "x.py"], some []⟩
     (by decide) (by rfl)⟩

/-! ### Token-chain analysis of occurrences of the rewriting patterns -/

theorem delimFree_drop {s : List Char} (h : DelimFree s) (j : Nat) :
    DelimFree (s.drop j) :=
  fun c hc => h c (List.mem_of_mem_drop hc)

theorem delimFree_of_decide {s : List Char} (h : ∀ c ∈ s, (c ≠ ' ' ∧ c ≠ '.')) :
    DelimFree s := h

theorem not_isDelim_of_delimFree {s : List Char} {c : Char} (h : DelimFree s)
    (hc : c ∈ s) : ¬ isDelim c := by
  intro hd
  rcases hd with h1 | h1
  · exact (h c hc).1 h1
  · exact (h c hc).2 h1

theorem prefix_delim_split {A1 A2 r1 r2 : List Char} {c1 c2 : Char}
    (hA1 : DelimFree A1) (hA2 : DelimFree A2)
    (hc1 : isDelim c1) (hc2 : isDelim c2)
    (h : A1 ++ c1 :: r1 <+: A2 ++ c2 :: r2) :
    A1 = A2 ∧ c1 = c2 ∧ r1 <+: r2 := by
  induction A1 generalizing A2 with
  | nil =>
    cases A2 with
    | nil =>
      rw [List.nil_append, List.nil_append, List.cons_prefix_cons] at h
      exact ⟨rfl, h.1, h.2⟩
    | cons a2 A2t =>
      rw [List.nil_append, List.cons_append, List.cons_prefix_cons] at h
      exact absurd (h.1 ▸ hc1)
        (not_isDelim_of_delimFree hA2 (List.mem_cons_self a2 A2t))
  | cons a1 A1t ih =>
    cases A2 with
    | nil =>
      rw [List.cons_append, List.nil_append, List.cons_prefix_cons] at h
      exact absurd (h.1 ▸ not_isDelim_of_delimFree hA1 (List.mem_cons_self a1 A1t))
        (fun hn => hn hc2)
    | cons a2 A2t =>
      rw [List.cons_append, List.cons_append, List.cons_prefix_cons] at h
      have ht := ih (fun c hc => hA1 c (List.mem_cons_of_mem a1 hc))
        (fun c hc => hA2 c (List.mem_cons_of_mem a2 hc)) h.2
      exact ⟨by rw [h.1, ht.1], ht.2.1, ht.2.2⟩

theorem not_prefix_delimfree {A1 r1 A2 : List Char} {c1 : Char}
    (hA2 : DelimFree A2) (hc1 : isDelim c1) :
    ¬ (A1 ++ c1 :: r1 <+: A2) := by
  intro h
  induction A1 generalizing A2 with
  | nil =>
    cases A2 with
    | nil =>
      rw [List.nil_append] at h
      exact absurd (List.IsPrefix.length_le h) (by simp)
    | cons a2 A2t =>
      rw [List.nil_append, List.cons_prefix_cons] at h
      exact absurd (h.1 ▸ hc1)
        (not_isDelim_of_delimFree hA2 (List.mem_cons_self a2 A2t))
  | cons a1 A1t ih =>
    cases A2 with
    | nil =>
      rw [List.cons_append] at h
      exact absurd (List.IsPrefix.length_le h) (by simp)
    | cons a2 A2t =>
      rw [List.cons_append, List.cons_prefix_cons] at h
      exact ih (fun c hc => hA2 c (List.mem_cons_of_mem a2 hc)) h.2

theorem occ_exists_drop {p t : List Char} (h : p <:+: t) :
    ∃ k, p <+: t.drop k := by
  obtain ⟨s, u, rfl⟩ := h
  refine ⟨s.length, ?_⟩
  rw [List.append_assoc, List.drop_left]
  exact List.prefix_append p u

theorem drop_chain_cases (tok : List Char) (d : Char) (Y : List Char) (k : Nat) :
    (∃ j, j ≤ tok.length ∧ (tok ++ d :: Y).drop k = tok.drop j ++ d :: Y) ∨
      (∃ k2, (tok ++ d :: Y).drop k = Y.drop k2) := by
  by_cases hk : k ≤ tok.length
  · exact Or.inl ⟨k, hk, List.drop_append_of_le_length hk⟩
  · have h1 : (tok ++ d :: Y).drop k = (d :: Y).drop (k - tok.length) := by
      rw [List.drop_append_eq_append_drop]
      rw [List.drop_eq_nil_of_le (by omega), List.nil_append]
    obtain ⟨m, hm⟩ : ∃ m, k - tok.length = m + 1 := ⟨k - tok.length - 1, by omega⟩
    refine Or.inr ⟨m, ?_⟩
    rw [h1, hm, List.drop_succ_cons]

theorem prefix_drop_chain_cases {p : List Char} {tok : List Char} {d : Char}
    {Y : List Char} {k : Nat}
    (h : p <+: (tok ++ d :: Y).drop k) :
    (∃ j, j ≤ tok.length ∧ p <+: tok.drop j ++ d :: Y) ∨
      (∃ k2, p <+: Y.drop k2) := by
  rcases drop_chain_cases tok d Y k with ⟨j, hj, he⟩ | ⟨k2, he⟩
  · exact Or.inl ⟨j, hj, he ▸ h⟩
  · exact Or.inr ⟨k2, he ▸ h⟩

theorem infix_chain_step {p : List Char} {tok : List Char} {d : Char}
    {rest : List (List Char × Char)} {tail : List Char}
    (h : p <:+: chainStr ((tok, d) :: rest) tail) :
    (∃ j, j ≤ tok.length ∧ p <+: tok.drop j ++ d :: chainStr rest tail) ∨
      p <:+: chainStr rest tail := by
  obtain ⟨k, hk⟩ := occ_exists_drop h
  unfold chainStr at hk
  rcases prefix_drop_chain_cases hk with hl | ⟨k2, hr⟩
  · exact Or.inl hl
  · exact Or.inr (hr.isInfix.trans (List.drop_suffix k2 _).isInfix)

theorem not_infix_of_delim_count {p tail : List Char} {c : Char}
    (hc : c ∈ p) (ht : DelimFree tail) (hd : isDelim c) : ¬ p <:+: tail := by
  have h1 : tail.count c = 0 := by
    rw [List.count_eq_zero]
    intro hm
    exact not_isDelim_of_delimFree ht hm hd
  have h2 : 0 < p.count c := List.count_pos_iff.mpr hc
  exact @not_infix_of_count_lt p tail c (by omega)

theorem import_drop_eq_import {j : Nat}
    (h : "import".data.drop j = "import".data) : j = 0 := by
  have hl := congrArg List.length h
  rw [List.length_drop] at hl
  have h6 : ("import".data).length = 6 := rfl
  rw [h6] at hl
  omega

theorem import_drop_ne_from {j : Nat} : "import".data.drop j ≠ "from".data := by
  intro h
  have hl := congrArg List.length h
  rw [List.length_drop] at hl
  have h6 : ("import".data).length = 6 := rfl
  have h4 : ("from".data).length = 4 := rfl
  rw [h6, h4] at hl
  have hj : j = 2 := by omega
  subst hj
  exact absurd h (by decide)

theorem from_drop_eq_from {j : Nat}
    (h : "from".data.drop j = "from".data) : j = 0 := by
  have hl := congrArg List.length h
  rw [List.length_drop] at hl
  have h4 : ("from".data).length = 4 := rfl
  rw [h4] at hl
  omega

theorem from_drop_ne_import {j : Nat} : "from".data.drop j ≠ "import".data := by
  intro h
  have hl := congrArg List.length h
  rw [List.length_drop] at hl
  have h6 : ("import".data).length = 6 := rfl
  have h4 : ("from".data).length = 4 := rfl
  rw [h6, h4] at hl
  omega

/-! ### Claim C2 -/

theorem fixImportsWithPre_single (pre lib t : List Char) :
    fixImportsWithPre pre [lib] t =
      pyReplace ("from ".data ++ lib ++ ".".data)
        ("from ".data ++ (pre ++ '.' :: lib) ++ ".".data)
        (pyReplace ("import ".data ++ lib ++ ".".data)
          ("import ".data ++ (pre ++ '.' :: lib) ++ ".".data)
          (pyReplace ("import ".data ++ lib ++ " ".data)
            ("import ".data ++ (pre ++ '.' :: lib) ++ " ".data) t)) := rfl

theorem count_sp_eq_zero {s : List Char} (h : DelimFree s) : s.count ' ' = 0 :=
  List.count_eq_zero.mpr (fun hm => (h ' ' hm).1 rfl)

theorem count_dot_eq_zero {s : List Char} (h : DelimFree s) : s.count '.' = 0 :=
  List.count_eq_zero.mpr (fun hm => (h '.' hm).2 rfl)

/-- C2: import rewriting is exact-match safe.  Rewriting `"import foo.bar"`
with the mapping `foo -> ns.foo` yields `"import ns.foo.bar"`, rewriting
`"import foobar"` with the same mapping leaves it unchanged, and in general,
for any library name that is a strict prefix of a longer identifier, the
required trailing space/dot delimiter of the replacement patterns prevents
the library from rewriting the text `"import <identifier>"`. -/
theorem c2_exact_match_safe :
    fixImportsWithPre "ns".data ["foo".data] "import foo.bar".data =
      "import ns.foo.bar".data ∧
    fixImportsWithPre "ns".data ["foo".data] "import foobar".data =
      "import foobar".data ∧
    (∀ (pre lib w : List Char), IsIdent lib → IsIdent w →
      lib ≠ w → lib <+: w →
      fixImportsWithPre pre [lib] ("import ".data ++ w) =
        "import ".data ++ w) := by
  refine ⟨by decide, by decide, ?_⟩
  intro pre lib w hlib hw _ _
  obtain ⟨_, hlf⟩ := hlib
  obtain ⟨_, hwf⟩ := hw
  have hwsp := count_sp_eq_zero hwf
  have hwdot := count_dot_eq_zero hwf
  have hlsp := count_sp_eq_zero hlf
  have hldot := count_dot_eq_zero hlf
  have h1 : ¬ (("import ".data ++ lib ++ " ".data) <:+: ("import ".data ++ w)) := by
    apply @not_infix_of_count_lt _ _ ' '
    simp only [List.count_append, hwsp, hlsp]
    decide
  have h2 : ¬ (("import ".data ++ lib ++ ".".data) <:+: ("import ".data ++ w)) := by
    apply @not_infix_of_count_lt _ _ '.'
    simp only [List.count_append, hwdot, hldot]
    decide
  have h3 : ¬ (("from ".data ++ lib ++ ".".data) <:+: ("import ".data ++ w)) := by
    apply @not_infix_of_count_lt _ _ '.'
    simp only [List.count_append, hwdot, hldot]
    decide
  rw [fixImportsWithPre_single, pyReplace_skip_all _ h1,
    pyReplace_skip_all _ h2, pyReplace_skip_all _ h3]

/-- Witness for C2 at the library `foo` and the longer identifier `foobar`. -/
theorem c2_exact_match_safe_witness :
    IsIdent "foo".data ∧ IsIdent "foobar".data ∧
    "foo".data ≠ "foobar".data ∧ "foo".data <+: "foobar".data ∧
    fixImportsWithPre "zz".data ["foo".data] ("import ".data ++ "foobar".data) =
      "import ".data ++ "foobar".data :=
  ⟨by decide, by decide, by decide, by decide,
   c2_exact_match_safe.2.2 "zz".data "foo".data "foobar".data
     (by decide) (by decide) (by decide) (by decide)⟩

/-! ### Claim C3: which statement forms are rewritten -/

theorem pyReplace_prefix_once {p : List Char} (n : List Char) {r : List Char}
    (hp : p ≠ []) (h : ¬ p <:+: r) :
    pyReplace p n (p ++ r) = n ++ r := by
  have hne : p ++ r ≠ [] := by
    intro he
    exact hp (List.append_eq_nil.mp he).1
  rw [pyReplace_of_pos n hp (List.prefix_append p r) hne, List.drop_left,
    pyReplace_skip_all n h]

theorem no_occ_p2_in_n1 {pre lib r : List Char} (hpre : DelimFree pre)
    (hlib : DelimFree lib) (hr : DelimFree r) (hne : lib ≠ pre) :
    ¬ (("import".data ++ ' ' :: (lib ++ ['.'])) <:+:
        chainStr [("import".data, ' '), (pre, '.'), (lib, ' ')] r) := by
  intro h
  rcases infix_chain_step h with ⟨j, _, hp⟩ | h
  · have hs := prefix_delim_split (by decide) (delimFree_drop (by decide) j)
      (Or.inl rfl) (Or.inl rfl) hp
    have hs2 := prefix_delim_split hlib hpre (Or.inr rfl) (Or.inr rfl)
      (show lib ++ '.' :: ([] : List Char) <+:
        pre ++ '.' :: chainStr [(lib, ' ')] r from hs.2.2)
    exact hne hs2.1
  rcases infix_chain_step h with ⟨j, _, hp⟩ | h
  · have hs := prefix_delim_split (by decide) (delimFree_drop hpre j)
      (Or.inl rfl) (Or.inr rfl) hp
    exact absurd hs.2.1 (by decide)
  rcases infix_chain_step h with ⟨j, _, hp⟩ | h
  · have hs := prefix_delim_split (by decide) (delimFree_drop hlib j)
      (Or.inl rfl) (Or.inl rfl) hp
    exact not_prefix_delimfree hr (Or.inr rfl) hs.2.2
  · exact not_infix_of_delim_count
      (List.mem_append_right _ (List.mem_cons_self _ _)) hr (Or.inl rfl) h

theorem no_occ_p3_in_n1 {pre lib r : List Char} (hpre : DelimFree pre)
    (hlib : DelimFree lib) (hr : DelimFree r) :
    ¬ (("from".data ++ ' ' :: (lib ++ ['.'])) <:+:
        chainStr [("import".data, ' '), (pre, '.'), (lib, ' ')] r) := by
  intro h
  rcases infix_chain_step h with ⟨j, _, hp⟩ | h
  · have hs := prefix_delim_split (by decide) (delimFree_drop (by decide) j)
      (Or.inl rfl) (Or.inl rfl) hp
    exact import_drop_ne_from hs.1.symm
  rcases infix_chain_step h with ⟨j, _, hp⟩ | h
  · have hs := prefix_delim_split (by decide) (delimFree_drop hpre j)
      (Or.inl rfl) (Or.inr rfl) hp
    exact absurd hs.2.1 (by decide)
  rcases infix_chain_step h with ⟨j, _, hp⟩ | h
  · have hs := prefix_delim_split (by decide) (delimFree_drop hlib j)
      (Or.inl rfl) (Or.inl rfl) hp
    exact not_prefix_delimfree hr (Or.inr rfl) hs.2.2
  · exact not_infix_of_delim_count
      (List.mem_append_right _ (List.mem_cons_self _ _)) hr (Or.inl rfl) h

theorem c3_form_import_sp {pre lib r : List Char} (hpre : IsIdent pre)
    (hlib : IsIdent lib) (hr : DelimFree r) (hne : lib ≠ pre) :
    fixImportsWithPre pre [lib] ("import ".data ++ lib ++ " ".data ++ r) =
      "import ".data ++ (pre ++ '.' :: lib) ++ " ".data ++ r := by
  obtain ⟨_, hpref⟩ := hpre
  obtain ⟨_, hlibf⟩ := hlib
  rw [fixImportsWithPre_single]
  have e1 : ("import ".data ++ lib ++ " ".data ++ r) =
      ("import ".data ++ lib ++ " ".data) ++ r := by
    simp [List.append_assoc]
  rw [e1, pyReplace_prefix_once _ (by simp)
    (not_infix_of_delim_count (List.mem_append_right _ (by decide)) hr
      (Or.inl rfl))]
  have echain : ("import ".data ++ (pre ++ '.' :: lib) ++ " ".data) ++ r =
      chainStr [("import".data, ' '), (pre, '.'), (lib, ' ')] r := by
    simp [chainStr, List.append_assoc]
  rw [echain]
  have h2 : ¬ (("import ".data ++ lib ++ ".".data) <:+:
      chainStr [("import".data, ' '), (pre, '.'), (lib, ' ')] r) :=
    no_occ_p2_in_n1 hpref hlibf hr hne
  have h3 : ¬ (("from ".data ++ lib ++ ".".data) <:+:
      chainStr [("import".data, ' '), (pre, '.'), (lib, ' ')] r) :=
    no_occ_p3_in_n1 hpref hlibf hr
  rw [pyReplace_skip_all _ h2, pyReplace_skip_all _ h3]

theorem no_occ_p1_in_import_dot {lib r : List Char}
    (hlib : DelimFree lib) (hr : DelimFree r) :
    ¬ (("import".data ++ ' ' :: (lib ++ [' '])) <:+:
        chainStr [("import".data, ' '), (lib, '.')] r) := by
  intro h
  rcases infix_chain_step h with ⟨j, _, hp⟩ | h
  · have hs := prefix_delim_split (by decide) (delimFree_drop (by decide) j)
      (Or.inl rfl) (Or.inl rfl) hp
    have hs2 := prefix_delim_split hlib hlib (Or.inl rfl) (Or.inr rfl)
      (show lib ++ ' ' :: ([] : List Char) <+: lib ++ '.' :: r from hs.2.2)
    exact absurd hs2.2.1 (by decide)
  rcases infix_chain_step h with ⟨j, _, hp⟩ | h
  · have hs := prefix_delim_split (by decide) (delimFree_drop hlib j)
      (Or.inl rfl) (Or.inr rfl) hp
    exact absurd hs.2.1 (by decide)
  · exact not_infix_of_delim_count
      (List.mem_append_right _ (List.mem_cons_self _ _)) hr (Or.inl rfl) h

theorem no_occ_p3_in_n2 {pre lib r : List Char} (hpre : DelimFree pre)
    (hlib : DelimFree lib) (hr : DelimFree r) :
    ¬ (("from".data ++ ' ' :: (lib ++ ['.'])) <:+:
        chainStr [("import".data, ' '), (pre, '.'), (lib, '.')] r) := by
  intro h
  rcases infix_chain_step h with ⟨j, _, hp⟩ | h
  · have hs := prefix_delim_split (by decide) (delimFree_drop (by decide) j)
      (Or.inl rfl) (Or.inl rfl) hp
    exact import_drop_ne_from hs.1.symm
  rcases infix_chain_step h with ⟨j, _, hp⟩ | h
  · have hs := prefix_delim_split (by decide) (delimFree_drop hpre j)
      (Or.inl rfl) (Or.inr rfl) hp
    exact absurd hs.2.1 (by decide)
  rcases infix_chain_step h with ⟨j, _, hp⟩ | h
  · have hs := prefix_delim_split (by decide) (delimFree_drop hlib j)
      (Or.inl rfl) (Or.inr rfl) hp
    exact absurd hs.2.1 (by decide)
  · exact not_infix_of_delim_count
      (List.mem_append_right _ (List.mem_cons_self _ _)) hr (Or.inl rfl) h

theorem c3_form_import_dot {pre lib r : List Char} (hpre : IsIdent pre)
    (hlib : IsIdent lib) (hr : DelimFree r) :
    fixImportsWithPre pre [lib] (("import ".data ++ lib ++ ".".data) ++ r) =
      ("import ".data ++ (pre ++ '.' :: lib) ++ ".".data) ++ r := by
  obtain ⟨_, hpref⟩ := hpre
  obtain ⟨_, hlibf⟩ := hlib
  rw [fixImportsWithPre_single]
  have e1 : ("import ".data ++ lib ++ ".".data) ++ r =
      chainStr [("import".data, ' '), (lib, '.')] r := by
    simp [chainStr, List.append_assoc]
  have hne1 : ¬ (("import ".data ++ lib ++ " ".data) <:+:
      (("import ".data ++ lib ++ ".".data) ++ r)) := by
    rw [e1]
    exact no_occ_p1_in_import_dot hlibf hr
  rw [pyReplace_skip_all _ hne1]
  rw [pyReplace_prefix_once _ (by simp)
    (not_infix_of_delim_count
      (List.mem_append_left _ (List.mem_append_left _ (by decide))) hr
      (Or.inl rfl))]
  have e2 : ("import ".data ++ (pre ++ '.' :: lib) ++ ".".data) ++ r =
      chainStr [("import".data, ' '), (pre, '.'), (lib, '.')] r := by
    simp [chainStr, List.append_assoc]
  have hne3 : ¬ (("from ".data ++ lib ++ ".".data) <:+:
      (("import ".data ++ (pre ++ '.' :: lib) ++ ".".data) ++ r)) := by
    rw [e2]
    exact no_occ_p3_in_n2 hpref hlibf hr
  rw [pyReplace_skip_all _ hne3]

theorem no_occ_import_kw_in_from_dot {lib r prest : List Char}
    (hlib : DelimFree lib) (hr : DelimFree r) :
    ¬ (("import".data ++ ' ' :: prest) <:+:
        chainStr [("from".data, ' '), (lib, '.')] r) := by
  intro h
  rcases infix_chain_step h with ⟨j, _, hp⟩ | h
  · have hs := prefix_delim_split (by decide) (delimFree_drop (by decide) j)
      (Or.inl rfl) (Or.inl rfl) hp
    exact from_drop_ne_import hs.1.symm
  rcases infix_chain_step h with ⟨j, _, hp⟩ | h
  · have hs := prefix_delim_split (by decide) (delimFree_drop hlib j)
      (Or.inl rfl) (Or.inr rfl) hp
    exact absurd hs.2.1 (by decide)
  · exact not_infix_of_delim_count
      (List.mem_append_right _ (List.mem_cons_self _ _)) hr (Or.inl rfl) h

theorem c3_form_from_dot {pre lib r : List Char} (hpre : IsIdent pre)
    (hlib : IsIdent lib) (hr : DelimFree r) :
    fixImportsWithPre pre [lib] (("from ".data ++ lib ++ ".".data) ++ r) =
      ("from ".data ++ (pre ++ '.' :: lib) ++ ".".data) ++ r := by
  obtain ⟨_, _⟩ := hpre
  obtain ⟨_, hlibf⟩ := hlib
  rw [fixImportsWithPre_single]
  have e1 : ("from ".data ++ lib ++ ".".data) ++ r =
      chainStr [("from".data, ' '), (lib, '.')] r := by
    simp [chainStr, List.append_assoc]
  have hne1 : ¬ (("import ".data ++ lib ++ " ".data) <:+:
      (("from ".data ++ lib ++ ".".data) ++ r)) := by
    rw [e1]
    exact no_occ_import_kw_in_from_dot hlibf hr
  have hne2 : ¬ (("import ".data ++ lib ++ ".".data) <:+:
      (("from ".data ++ lib ++ ".".data) ++ r)) := by
    rw [e1]
    exact no_occ_import_kw_in_from_dot hlibf hr
  rw [pyReplace_skip_all _ hne1, pyReplace_skip_all _ hne2]
  rw [pyReplace_prefix_once _ (by simp)
    (not_infix_of_delim_count
      (List.mem_append_left _ (List.mem_append_left _ (by decide))) hr
      (Or.inl rfl))]

theorem no_occ_import_pat_in_from_import {lib m : List Char} {d : Char}
    (hlib : DelimFree lib) (hm : DelimFree m) (hd : isDelim d)
    (hlibne : lib ≠ "import".data) :
    ¬ (("import".data ++ ' ' :: (lib ++ [d])) <:+:
        chainStr [("from".data, ' '), (lib, ' '), ("import".data, ' ')] m) := by
  intro h
  rcases infix_chain_step h with ⟨j, _, hp⟩ | h
  · have hs := prefix_delim_split (by decide) (delimFree_drop (by decide) j)
      (Or.inl rfl) (Or.inl rfl) hp
    exact from_drop_ne_import hs.1.symm
  rcases infix_chain_step h with ⟨j, _, hp⟩ | h
  · have hs := prefix_delim_split (by decide) (delimFree_drop hlib j)
      (Or.inl rfl) (Or.inl rfl) hp
    have hs2 := prefix_delim_split hlib (by decide) hd (Or.inl rfl)
      (show lib ++ d :: ([] : List Char) <+:
        "import".data ++ ' ' :: chainStr [] m from hs.2.2)
    exact hlibne hs2.1
  rcases infix_chain_step h with ⟨j, _, hp⟩ | h
  · have hs := prefix_delim_split (by decide) (delimFree_drop (by decide) j)
      (Or.inl rfl) (Or.inl rfl) hp
    exact not_prefix_delimfree hm hd hs.2.2
  · exact not_infix_of_delim_count
      (List.mem_append_right _ (List.mem_cons_self _ _)) hm (Or.inl rfl) h

theorem no_occ_from_pat_in_from_import {lib m : List Char}
    (hlib : DelimFree lib) (hm : DelimFree m)
    (hlibne : lib ≠ "import".data) :
    ¬ (("from".data ++ ' ' :: (lib ++ ['.'])) <:+:
        chainStr [("from".data, ' '), (lib, ' '), ("import".data, ' ')] m) := by
  intro h
  rcases infix_chain_step h with ⟨j, _, hp⟩ | h
  · have hs := prefix_delim_split (by decide) (delimFree_drop (by decide) j)
      (Or.inl rfl) (Or.inl rfl) hp
    have hs2 := prefix_delim_split hlib hlib (Or.inr rfl) (Or.inl rfl)
      (show lib ++ '.' :: ([] : List Char) <+:
        lib ++ ' ' :: chainStr [("import".data, ' ')] m from hs.2.2)
    exact absurd hs2.2.1 (by decide)
  rcases infix_chain_step h with ⟨j, _, hp⟩ | h
  · have hs := prefix_delim_split (by decide) (delimFree_drop hlib j)
      (Or.inl rfl) (Or.inl rfl) hp
    have hs2 := prefix_delim_split hlib (by decide) (Or.inr rfl) (Or.inl rfl)
      (show lib ++ '.' :: ([] : List Char) <+:
        "import".data ++ ' ' :: chainStr [] m from hs.2.2)
    exact hlibne hs2.1
  rcases infix_chain_step h with ⟨j, _, hp⟩ | h
  · have hs := prefix_delim_split (by decide) (delimFree_drop (by decide) j)
      (Or.inl rfl) (Or.inl rfl) hp
    exact import_drop_ne_from hs.1.symm
  · exact not_infix_of_delim_count
      (List.mem_append_right _ (List.mem_cons_self _ _)) hm (Or.inl rfl) h

theorem c3_form_from_import {pre lib m : List Char}
    (hlib : IsIdent lib) (hm : DelimFree m) (hlibne : lib ≠ "import".data) :
    fixImportsWithPre pre [lib] (("from ".data ++ lib ++ " import ".data) ++ m) =
      ("from ".data ++ lib ++ " import ".data) ++ m := by
  obtain ⟨_, hlibf⟩ := hlib
  rw [fixImportsWithPre_single]
  have e1 : ("from ".data ++ lib ++ " import ".data) ++ m =
      chainStr [("from".data, ' '), (lib, ' '), ("import".data, ' ')] m := by
    simp [chainStr, List.append_assoc]
  have hne1 : ¬ (("import ".data ++ lib ++ " ".data) <:+:
      (("from ".data ++ lib ++ " import ".data) ++ m)) := by
    rw [e1]
    exact no_occ_import_pat_in_from_import hlibf hm (Or.inl rfl) hlibne
  have hne2 : ¬ (("import ".data ++ lib ++ ".".data) <:+:
      (("from ".data ++ lib ++ " import ".data) ++ m)) := by
    rw [e1]
    exact no_occ_import_pat_in_from_import hlibf hm (Or.inr rfl) hlibne
  have hne3 : ¬ (("from ".data ++ lib ++ ".".data) <:+:
      (("from ".data ++ lib ++ " import ".data) ++ m)) := by
    rw [e1]
    exact no_occ_from_pat_in_from_import hlibf hm hlibne
  rw [pyReplace_skip_all _ hne1, pyReplace_skip_all _ hne2,
    pyReplace_skip_all _ hne3]

theorem no_occ_import_pat_in_bare {lib tail : List Char} {d : Char}
    (htail : DelimFree tail) (hd : isDelim d) :
    ¬ (("import".data ++ ' ' :: (lib ++ [d])) <:+:
        chainStr [("import".data, ' ')] tail) := by
  intro h
  rcases infix_chain_step h with ⟨j, _, hp⟩ | h
  · have hs := prefix_delim_split (by decide) (delimFree_drop (by decide) j)
      (Or.inl rfl) (Or.inl rfl) hp
    exact not_prefix_delimfree htail hd hs.2.2
  · exact not_infix_of_delim_count
      (List.mem_append_right _ (List.mem_cons_self _ _)) htail (Or.inl rfl) h

theorem no_occ_from_pat_in_bare {lib tail : List Char}
    (htail : DelimFree tail) :
    ¬ (("from".data ++ ' ' :: (lib ++ ['.'])) <:+:
        chainStr [("import".data, ' ')] tail) := by
  intro h
  rcases infix_chain_step h with ⟨j, _, hp⟩ | h
  · have hs := prefix_delim_split (by decide) (delimFree_drop (by decide) j)
      (Or.inl rfl) (Or.inl rfl) hp
    exact import_drop_ne_from hs.1.symm
  · exact not_infix_of_delim_count
      (List.mem_append_right _ (List.mem_cons_self _ _)) htail (Or.inl rfl) h

theorem c3_form_bare_newline {pre lib : List Char} (hlib : IsIdent lib) :
    fixImportsWithPre pre [lib] ("import ".data ++ lib ++ ['\n']) =
      "import ".data ++ lib ++ ['\n'] := by
  obtain ⟨_, hlibf⟩ := hlib
  have htail : DelimFree (lib ++ ['\n']) := by
    intro c hc
    rcases List.mem_append.mp hc with hc1 | hc1
    · exact hlibf c hc1
    · rw [List.mem_singleton] at hc1
      subst hc1
      exact ⟨by decide, by decide⟩
  rw [fixImportsWithPre_single]
  have e1 : "import ".data ++ lib ++ ['\n'] =
      chainStr [("import".data, ' ')] (lib ++ ['\n']) := by
    simp [chainStr, List.append_assoc]
  have hne1 : ¬ (("import ".data ++ lib ++ " ".data) <:+:
      ("import ".data ++ lib ++ ['\n'])) := by
    rw [e1]
    exact no_occ_import_pat_in_bare htail (Or.inl rfl)
  have hne2 : ¬ (("import ".data ++ lib ++ ".".data) <:+:
      ("import ".data ++ lib ++ ['\n'])) := by
    rw [e1]
    exact no_occ_import_pat_in_bare htail (Or.inr rfl)
  have hne3 : ¬ (("from ".data ++ lib ++ ".".data) <:+:
      ("import ".data ++ lib ++ ['\n'])) := by
    rw [e1]
    exact no_occ_from_pat_in_bare htail
  rw [pyReplace_skip_all _ hne1, pyReplace_skip_all _ hne2,
    pyReplace_skip_all _ hne3]

/-- C3 (amended): the Import Rewriter rewrites exactly the delimiter-bearing
textual forms `import <lib> `, `import <lib>.` and `from <lib>.` — for those,
the rewritten text references the prefix-qualified name in place of the
library — while the statement forms `from <lib> import <member>` and a bare
`import <lib>` immediately followed by a newline match none of the
replacement patterns and are left unchanged. -/
theorem c3_rewrite_forms_amended :
    (∀ (pre lib r : List Char), IsIdent pre → IsIdent lib → DelimFree r →
      lib ≠ pre →
      fixImportsWithPre pre [lib] ("import ".data ++ lib ++ " ".data ++ r) =
        "import ".data ++ (pre ++ '.' :: lib) ++ " ".data ++ r) ∧
    (∀ (pre lib r : List Char), IsIdent pre → IsIdent lib → DelimFree r →
      fixImportsWithPre pre [lib] (("import ".data ++ lib ++ ".".data) ++ r) =
        ("import ".data ++ (pre ++ '.' :: lib) ++ ".".data) ++ r) ∧
    (∀ (pre lib r : List Char), IsIdent pre → IsIdent lib → DelimFree r →
      fixImportsWithPre pre [lib] (("from ".data ++ lib ++ ".".data) ++ r) =
        ("from ".data ++ (pre ++ '.' :: lib) ++ ".".data) ++ r) ∧
    (∀ (pre lib m : List Char), IsIdent lib → DelimFree m →
      lib ≠ "import".data →
      fixImportsWithPre pre [lib] (("from ".data ++ lib ++ " import ".data) ++ m) =
        ("from ".data ++ lib ++ " import ".data) ++ m) ∧
    (∀ (pre lib : List Char), IsIdent lib →
      fixImportsWithPre pre [lib] ("import ".data ++ lib ++ ['\n']) =
        "import ".data ++ lib ++ ['\n']) :=
  ⟨fun _ _ _ hpre hlib hr hne => c3_form_import_sp hpre hlib hr hne,
   fun _ _ _ hpre hlib hr => c3_form_import_dot hpre hlib hr,
   fun _ _ _ hpre hlib hr => c3_form_from_dot hpre hlib hr,
   fun _ _ _ hlib hm hlibne => c3_form_from_import hlib hm hlibne,
   fun _ _ hlib => c3_form_bare_newline hlib⟩

/-- Witness for C3 (amended) at the library `foo`, prefix `ns`, member
`bar`. -/
theorem c3_rewrite_forms_amended_witness :
    fixImportsWithPre "ns".data ["foo".data]
        (("from ".data ++ "foo".data ++ ".".data) ++ "sub".data) =
      ("from ".data ++ ("ns".data ++ '.' :: "foo".data) ++ ".".data) ++
        "sub".data ∧
    fixImportsWithPre "ns".data ["foo".data]
        (("from ".data ++ "foo".data ++ " import ".data) ++ "bar".data) =
      ("from ".data ++ "foo".data ++ " import ".data) ++ "bar".data ∧
    fixImportsWithPre "ns".data ["foo".data]
        ("import ".data ++ "foo".data ++ ['\n']) =
      "import ".data ++ "foo".data ++ ['\n'] :=
  ⟨c3_rewrite_forms_amended.2.2.1 "ns".data "foo".data "sub".data
     (by decide) (by decide) (by decide),
   c3_rewrite_forms_amended.2.2.2.1 "ns".data "foo".data "bar".data
     (by decide) (by decide) (by decide),
   c3_rewrite_forms_amended.2.2.2.2 "ns".data "foo".data (by decide)⟩

/-! ### Claim C1: commutation machinery for sequential replacements -/

theorem noCross_shift {p : List Char} {c : Char} {u2 : List Char}
    (h : NoCross p (c :: u2)) : NoCross p u2 := by
  intro k hk
  have := h (k + 1) (by simp only [List.length_cons]; omega)
  rw [List.drop_succ_cons] at this
  exact this

theorem pyReplace_append_of_nocross {p u : List Char} (n : List Char)
    (hnc : NoCross p u) :
    ∀ t, pyReplace p n (u ++ t) = u ++ pyReplace p n t := by
  induction u with
  | nil => intro t; rfl
  | cons c u2 ih =>
    intro t
    have h0 := hnc 0 (by simp)
    rw [List.drop_zero] at h0
    have hpne : p ≠ [] := by
      intro he
      exact h0.1 (he ▸ List.nil_prefix)
    have hnp : ¬ p <+: c :: (u2 ++ t) := by
      intro hp
      rcases prefix_append_cases (show p <+: (c :: u2) ++ t from hp) with h | h
      · exact h0.1 h
      · exact h0.2 h
    show pyReplace p n (c :: (u2 ++ t)) = c :: (u2 ++ pyReplace p n t)
    rw [pyReplace_cons_of_neg n hpne hnp, ih (noCross_shift hnc) t]

theorem not_prefix_pyReplace {p1 n1 p2 : List Char} (hp1 : p1 ≠ [])
    (hnc : NoCross n1 p2) :
    ∀ (N : Nat) (s : List Char), s.length ≤ N → ∀ j, j < p2.length →
      ¬ (p2.drop j <+: s) → ¬ (p2.drop j <+: pyReplace p1 n1 s) := by
  intro N
  induction N with
  | zero =>
    intro s hs j hj _
    have hse : s = [] := List.eq_nil_of_length_eq_zero (Nat.le_zero.mp hs)
    subst hse
    rw [pyReplace_nil, if_neg hp1]
    intro hq
    rw [List.prefix_nil, List.drop_eq_nil_iff] at hq
    omega
  | succ N ih =>
    intro s hs j hj hns
    by_cases hm : p1 <+: s
    · have hsne : s ≠ [] := by
        intro he
        subst he
        exact hp1 (List.prefix_nil.mp hm)
      rw [pyReplace_of_pos n1 hp1 hm hsne]
      intro hq
      have hd := hnc j hj
      rcases prefix_append_cases hq with h | h
      · exact hd.2 h
      · exact hd.1 h
    · cases s with
      | nil =>
        rw [pyReplace_nil, if_neg hp1]
        intro hq
        rw [List.prefix_nil, List.drop_eq_nil_iff] at hq
        omega
      | cons c rest =>
        rw [pyReplace_cons_of_neg n1 hp1 hm]
        intro hq
        have hqd : p2.drop j = p2[j] :: p2.drop (j + 1) :=
          List.drop_eq_getElem_cons hj
        rw [hqd, List.cons_prefix_cons] at hq
        rw [hqd, List.cons_prefix_cons] at hns
        by_cases hj1 : j + 1 < p2.length
        · have hns2 : ¬ (p2.drop (j + 1) <+: rest) := by
            intro hr
            exact hns ⟨hq.1, hr⟩
          exact ih rest (by simp only [List.length_cons] at hs; omega) (j + 1)
            hj1 hns2 hq.2
        · have hnil : p2.drop (j + 1) = [] :=
            List.drop_eq_nil_iff.mpr (by omega)
          exact hns ⟨hq.1, hnil ▸ List.nil_prefix⟩

theorem pyReplace_nil_of_ne {old : List Char} (new : List Char)
    (ho : old ≠ []) : pyReplace old new [] = [] := by
  rw [pyReplace_nil, if_neg ho]

theorem pyReplace_comm {p1 n1 p2 n2 : List Char}
    (hp1 : p1 ≠ []) (hp2 : p2 ≠ [])
    (h21 : NoCross p2 p1) (h12 : NoCross p1 p2)
    (h2n1 : NoCross p2 n1) (h1n2 : NoCross p1 n2)
    (hn12 : NoCross n1 p2) (hn21 : NoCross n2 p1) :
    ∀ s, pyReplace p2 n2 (pyReplace p1 n1 s) =
      pyReplace p1 n1 (pyReplace p2 n2 s) := by
  suffices H : ∀ (N : Nat) (s : List Char), s.length ≤ N →
      pyReplace p2 n2 (pyReplace p1 n1 s) =
        pyReplace p1 n1 (pyReplace p2 n2 s) by
    exact fun s => H s.length s (le_refl _)
  intro N
  induction N with
  | zero =>
    intro s hs
    have hse : s = [] := List.eq_nil_of_length_eq_zero (Nat.le_zero.mp hs)
    subst hse
    simp only [pyReplace_nil_of_ne n1 hp1, pyReplace_nil_of_ne n2 hp2]
  | succ N ih =>
    intro s hs
    have hl1 : 1 ≤ p1.length := by
      cases p1 with
      | nil => exact absurd rfl hp1
      | cons a as => simp
    have hl2 : 1 ≤ p2.length := by
      cases p2 with
      | nil => exact absurd rfl hp2
      | cons a as => simp
    by_cases hm1 : p1 <+: s
    · have hsne : s ≠ [] := by
        intro he
        subst he
        exact hp1 (List.prefix_nil.mp hm1)
      have hdec : s = p1 ++ s.drop p1.length := eq_append_drop_of_prefix hm1
      rw [pyReplace_of_pos n1 hp1 hm1 hsne,
        pyReplace_append_of_nocross n2 h2n1]
      conv_rhs => rw [hdec]
      rw [pyReplace_append_of_nocross n2 h21,
        pyReplace_of_pos n1 hp1 (List.prefix_append p1 _)
          (by simp [hp1]), List.drop_left]
      congr 1
      apply ih
      have hlen : s.length = p1.length + (s.drop p1.length).length := by
        conv_lhs => rw [hdec]
        simp
      omega
    · by_cases hm2 : p2 <+: s
      · have hsne : s ≠ [] := by
          intro he
          subst he
          exact hp2 (List.prefix_nil.mp hm2)
        have hdec : s = p2 ++ s.drop p2.length := eq_append_drop_of_prefix hm2
        rw [pyReplace_of_pos n2 hp2 hm2 hsne,
          pyReplace_append_of_nocross n1 h1n2]
        conv_lhs => rw [hdec]
        rw [pyReplace_append_of_nocross n1 h12,
          pyReplace_of_pos n2 hp2 (List.prefix_append p2 _)
            (by simp [hp2]), List.drop_left]
        congr 1
        apply ih
        have hlen : s.length = p2.length + (s.drop p2.length).length := by
          conv_lhs => rw [hdec]
          simp
        omega
      · cases s with
        | nil =>
          simp only [pyReplace_nil_of_ne n1 hp1, pyReplace_nil_of_ne n2 hp2]
        | cons c rest =>
          rw [pyReplace_cons_of_neg n1 hp1 hm1]
          have hh2 : ¬ p2 <+: c :: pyReplace p1 n1 rest := by
            have := not_prefix_pyReplace hp1 hn12 (rest.length + 1)
              (c :: rest) (by simp) 0 (by omega)
              (by rw [List.drop_zero]; exact hm2)
            rw [List.drop_zero, pyReplace_cons_of_neg n1 hp1 hm1] at this
            exact this
          rw [pyReplace_cons_of_neg n2 hp2 hh2, pyReplace_cons_of_neg n2 hp2 hm2]
          have hh1 : ¬ p1 <+: c :: pyReplace p2 n2 rest := by
            have := not_prefix_pyReplace hp2 hn21 (rest.length + 1)
              (c :: rest) (by simp) 0 (by omega)
              (by rw [List.drop_zero]; exact hm1)
            rw [List.drop_zero, pyReplace_cons_of_neg n2 hp2 hm2] at this
            exact this
          rw [pyReplace_cons_of_neg n1 hp1 hh1]
          congr 1
          apply ih
          simp only [List.length_cons] at hs
          omega

theorem drop_pat_shapes {kw x : List Char} {d : Char} {k : Nat}
    (hk : k < (kw ++ ' ' :: (x ++ [d])).length) :
    (∃ j, (kw ++ ' ' :: (x ++ [d])).drop k = kw.drop j ++ ' ' :: (x ++ [d])) ∨
    (∃ j, (kw ++ ' ' :: (x ++ [d])).drop k = x.drop j ++ [d]) := by
  rcases drop_chain_cases kw ' ' (x ++ [d]) k with ⟨j, _, he⟩ | ⟨k2, he⟩
  · exact Or.inl ⟨j, he⟩
  · rcases drop_chain_cases x d [] k2 with ⟨j, _, he2⟩ | ⟨k3, he2⟩
    · refine Or.inr ⟨j, ?_⟩
      rw [he]
      exact he2
    · exfalso
      have hne : (kw ++ ' ' :: (x ++ [d])).drop k ≠ [] := by
        intro h0
        rw [List.drop_eq_nil_iff] at h0
        omega
      apply hne
      rw [he, he2]
      simp

theorem drop_rep_shapes {kw pe x : List Char} {d : Char} {k : Nat}
    (hk : k < (kw ++ ' ' :: (pe ++ '.' :: (x ++ [d]))).length) :
    (∃ j, (kw ++ ' ' :: (pe ++ '.' :: (x ++ [d]))).drop k =
        kw.drop j ++ ' ' :: (pe ++ '.' :: (x ++ [d]))) ∨
    (∃ j, (kw ++ ' ' :: (pe ++ '.' :: (x ++ [d]))).drop k =
        pe.drop j ++ '.' :: (x ++ [d])) ∨
    (∃ j, (kw ++ ' ' :: (pe ++ '.' :: (x ++ [d]))).drop k = x.drop j ++ [d]) := by
  rcases drop_chain_cases kw ' ' (pe ++ '.' :: (x ++ [d])) k with ⟨j, _, he⟩ | ⟨k2, he⟩
  · exact Or.inl ⟨j, he⟩
  · rcases drop_chain_cases pe '.' (x ++ [d]) k2 with ⟨j, _, he2⟩ | ⟨k3, he2⟩
    · refine Or.inr (Or.inl ⟨j, ?_⟩)
      rw [he]
      exact he2
    · rcases drop_chain_cases x d [] k3 with ⟨j, _, he3⟩ | ⟨k4, he3⟩
      · refine Or.inr (Or.inr ⟨j, ?_⟩)
        rw [he, he2]
        exact he3
      · exfalso
        have hne : (kw ++ ' ' :: (pe ++ '.' :: (x ++ [d]))).drop k ≠ [] := by
          intro h0
          rw [List.drop_eq_nil_iff] at h0
          omega
        apply hne
        rw [he, he2, he3]
        simp

theorem nc_pat_pat {kw1 kw2 x y : List Char} {d1 d2 : Char}
    (hkwf1 : DelimFree kw1) (hkwf2 : DelimFree kw2)
    (hxf : DelimFree x) (hyf : DelimFree y)
    (hd1 : isDelim d1) (hd2 : isDelim d2)
    (hxy : x ≠ y)
    (hsufx : d1 = ' ' → ∀ j, x.drop j ≠ kw2) :
    NoCross (kw2 ++ ' ' :: (y ++ [d2])) (kw1 ++ ' ' :: (x ++ [d1])) := by
  intro k hk
  rcases drop_pat_shapes hk with ⟨j, he⟩ | ⟨j, he⟩
  · rw [he]
    constructor
    · intro hp
      have hs := prefix_delim_split hkwf2 (delimFree_drop hkwf1 j)
        (Or.inl rfl) (Or.inl rfl) hp
      have hs2 := prefix_delim_split hyf hxf hd2 hd1 hs.2.2
      exact hxy hs2.1.symm
    · intro hp
      have hs := prefix_delim_split (delimFree_drop hkwf1 j) hkwf2
        (Or.inl rfl) (Or.inl rfl) hp
      have hs2 := prefix_delim_split hxf hyf hd1 hd2 hs.2.2
      exact hxy hs2.1
  · rw [he]
    constructor
    · intro hp
      have hs := prefix_delim_split hkwf2 (delimFree_drop hxf j)
        (Or.inl rfl) hd1 hp
      have h0 := List.prefix_nil.mp hs.2.2
      exact absurd h0 (by simp)
    · intro hp
      have hs := prefix_delim_split (delimFree_drop hxf j) hkwf2
        hd1 (Or.inl rfl) hp
      exact hsufx hs.2.1 j hs.1

theorem nc_pat_rep {kw1 kw2 pe x y : List Char} {d1 d2 : Char}
    (hkwf1 : DelimFree kw1) (hkwf2 : DelimFree kw2)
    (hpef : DelimFree pe) (hxf : DelimFree x) (hyf : DelimFree y)
    (hd1 : isDelim d1) (hd2 : isDelim d2)
    (hype : y ≠ pe)
    (hsufx : d1 = ' ' → ∀ j, x.drop j ≠ kw2) :
    NoCross (kw2 ++ ' ' :: (y ++ [d2]))
      (kw1 ++ ' ' :: (pe ++ '.' :: (x ++ [d1]))) := by
  intro k hk
  rcases drop_rep_shapes hk with ⟨j, he⟩ | ⟨j, he⟩ | ⟨j, he⟩
  · rw [he]
    constructor
    · intro hp
      have hs := prefix_delim_split hkwf2 (delimFree_drop hkwf1 j)
        (Or.inl rfl) (Or.inl rfl) hp
      have hs2 := prefix_delim_split hyf hpef hd2 (Or.inr rfl) hs.2.2
      exact hype hs2.1
    · intro hp
      have hs := prefix_delim_split (delimFree_drop hkwf1 j) hkwf2
        (Or.inl rfl) (Or.inl rfl) hp
      have hs2 := prefix_delim_split hpef hyf (Or.inr rfl) hd2 hs.2.2
      have h0 := List.prefix_nil.mp hs2.2.2
      exact absurd h0 (by simp)
  · rw [he]
    constructor
    · intro hp
      have hs := prefix_delim_split hkwf2 (delimFree_drop hpef j)
        (Or.inl rfl) (Or.inr rfl) hp
      exact absurd hs.2.1 (by decide)
    · intro hp
      have hs := prefix_delim_split (delimFree_drop hpef j) hkwf2
        (Or.inr rfl) (Or.inl rfl) hp
      exact absurd hs.2.1 (by decide)
  · rw [he]
    constructor
    · intro hp
      have hs := prefix_delim_split hkwf2 (delimFree_drop hxf j)
        (Or.inl rfl) hd1 hp
      have h0 := List.prefix_nil.mp hs.2.2
      exact absurd h0 (by simp)
    · intro hp
      have hs := prefix_delim_split (delimFree_drop hxf j) hkwf2
        hd1 (Or.inl rfl) hp
      exact hsufx hs.2.1 j hs.1

theorem nc_rep_pat {kw1 kw2 pe x y : List Char} {d1 d2 : Char}
    (hkwf1 : DelimFree kw1) (hkwf2 : DelimFree kw2)
    (hpef : DelimFree pe) (hxf : DelimFree x) (hyf : DelimFree y)
    (hd1 : isDelim d1) (hd2 : isDelim d2)
    (hxpe : x ≠ pe)
    (hsufx : d1 = ' ' → ∀ j, x.drop j ≠ kw2) :
    NoCross (kw2 ++ ' ' :: (pe ++ '.' :: (y ++ [d2])))
      (kw1 ++ ' ' :: (x ++ [d1])) := by
  intro k hk
  rcases drop_pat_shapes hk with ⟨j, he⟩ | ⟨j, he⟩
  · rw [he]
    constructor
    · intro hp
      have hs := prefix_delim_split hkwf2 (delimFree_drop hkwf1 j)
        (Or.inl rfl) (Or.inl rfl) hp
      have hs2 := prefix_delim_split hpef hxf (Or.inr rfl) hd1 hs.2.2
      have h0 := List.prefix_nil.mp hs2.2.2
      exact absurd h0 (by simp)
    · intro hp
      have hs := prefix_delim_split (delimFree_drop hkwf1 j) hkwf2
        (Or.inl rfl) (Or.inl rfl) hp
      have hs2 := prefix_delim_split hxf hpef hd1 (Or.inr rfl) hs.2.2
      exact hxpe hs2.1
  · rw [he]
    constructor
    · intro hp
      have hs := prefix_delim_split hkwf2 (delimFree_drop hxf j)
        (Or.inl rfl) hd1 hp
      have h0 := List.prefix_nil.mp hs.2.2
      exact absurd h0 (by simp)
    · intro hp
      have hs := prefix_delim_split (delimFree_drop hxf j) hkwf2
        hd1 (Or.inl rfl) hp
      exact hsufx hs.2.1 j hs.1

theorem applyLib_comm {pre a b : List Char} (hpre : IsIdent pre)
    (ha : GoodLib pre a) (hb : GoodLib pre b) (hab : a ≠ b) (s : List Char) :
    applyLib (fun library => pre ++ '.' :: library) (fun library => library)
        (applyLib (fun library => pre ++ '.' :: library)
          (fun library => library) s a) b =
      applyLib (fun library => pre ++ '.' :: library) (fun library => library)
        (applyLib (fun library => pre ++ '.' :: library)
          (fun library => library) s b) a := by
  obtain ⟨_, hpref⟩ := hpre
  obtain ⟨⟨hane, haf⟩, hapre, hai, hafr⟩ := ha
  obtain ⟨⟨hbne, hbf⟩, hbpre, hbi, hbfr⟩ := hb
  have hsufa : ∀ kw2 : List Char,
      (kw2 = "import".data ∨ kw2 = "from".data) → ∀ j, a.drop j ≠ kw2 := by
    intro kw2 hkw j he
    rcases hkw with h | h
    · subst h
      exact hai (he ▸ List.drop_suffix j a)
    · subst h
      exact hafr (he ▸ List.drop_suffix j a)
  have hsufb : ∀ kw2 : List Char,
      (kw2 = "import".data ∨ kw2 = "from".data) → ∀ j, b.drop j ≠ kw2 := by
    intro kw2 hkw j he
    rcases hkw with h | h
    · subst h
      exact hbi (he ▸ List.drop_suffix j b)
    · subst h
      exact hbfr (he ▸ List.drop_suffix j b)
  have comm : ∀ (kwa : List Char) (da : Char) (kwb : List Char) (db : Char),
      (kwa = "import".data ∨ kwa = "from".data) →
      (kwb = "import".data ∨ kwb = "from".data) →
      isDelim da → isDelim db →
      ∀ z, pyReplace (kwb ++ ' ' :: (b ++ [db]))
          (kwb ++ ' ' :: (pre ++ '.' :: (b ++ [db])))
          (pyReplace (kwa ++ ' ' :: (a ++ [da]))
            (kwa ++ ' ' :: (pre ++ '.' :: (a ++ [da]))) z) =
        pyReplace (kwa ++ ' ' :: (a ++ [da]))
          (kwa ++ ' ' :: (pre ++ '.' :: (a ++ [da])))
          (pyReplace (kwb ++ ' ' :: (b ++ [db]))
            (kwb ++ ' ' :: (pre ++ '.' :: (b ++ [db]))) z) := by
    intro kwa da kwb db hkwa hkwb hda hdb z
    have hkwaf : DelimFree kwa := by
      rcases hkwa with h | h <;> subst h <;> decide
    have hkwbf : DelimFree kwb := by
      rcases hkwb with h | h <;> subst h <;> decide
    exact pyReplace_comm (by simp) (by simp)
      (nc_pat_pat hkwaf hkwbf haf hbf hda hdb hab (fun _ => hsufa kwb hkwb))
      (nc_pat_pat hkwbf hkwaf hbf haf hdb hda (Ne.symm hab)
        (fun _ => hsufb kwa hkwa))
      (nc_pat_rep hkwaf hkwbf hpref haf hbf hda hdb hbpre
        (fun _ => hsufa kwb hkwb))
      (nc_pat_rep hkwbf hkwaf hpref hbf haf hdb hda hapre
        (fun _ => hsufb kwa hkwa))
      (nc_rep_pat hkwbf hkwaf hpref hbf haf hdb hda hbpre
        (fun _ => hsufb kwa hkwa))
      (nc_rep_pat hkwaf hkwbf hpref haf hbf hda hdb hapre
        (fun _ => hsufa kwb hkwb)) z
  have c11 := comm "import".data ' ' "import".data ' '
    (Or.inl rfl) (Or.inl rfl) (Or.inl rfl) (Or.inl rfl)
  have c12 := comm "import".data ' ' "import".data '.'
    (Or.inl rfl) (Or.inl rfl) (Or.inl rfl) (Or.inr rfl)
  have c13 := comm "import".data ' ' "from".data '.'
    (Or.inl rfl) (Or.inr rfl) (Or.inl rfl) (Or.inr rfl)
  have c21 := comm "import".data '.' "import".data ' '
    (Or.inl rfl) (Or.inl rfl) (Or.inr rfl) (Or.inl rfl)
  have c22 := comm "import".data '.' "import".data '.'
    (Or.inl rfl) (Or.inl rfl) (Or.inr rfl) (Or.inr rfl)
  have c23 := comm "import".data '.' "from".data '.'
    (Or.inl rfl) (Or.inr rfl) (Or.inr rfl) (Or.inr rfl)
  have c31 := comm "from".data '.' "import".data ' '
    (Or.inr rfl) (Or.inl rfl) (Or.inr rfl) (Or.inl rfl)
  have c32 := comm "from".data '.' "import".data '.'
    (Or.inr rfl) (Or.inl rfl) (Or.inr rfl) (Or.inr rfl)
  have c33 := comm "from".data '.' "from".data '.'
    (Or.inr rfl) (Or.inr rfl) (Or.inr rfl) (Or.inr rfl)
  have eA1p : "import ".data ++ a ++ " ".data =
      "import".data ++ ' ' :: (a ++ [' ']) := by
    simp [List.append_assoc]
  have eA1r : "import ".data ++ (pre ++ '.' :: a) ++ " ".data =
      "import".data ++ ' ' :: (pre ++ '.' :: (a ++ [' '])) := by
    simp [List.append_assoc]
  have eA2p : "import ".data ++ a ++ ".".data =
      "import".data ++ ' ' :: (a ++ ['.']) := by
    simp [List.append_assoc]
  have eA2r : "import ".data ++ (pre ++ '.' :: a) ++ ".".data =
      "import".data ++ ' ' :: (pre ++ '.' :: (a ++ ['.'])) := by
    simp [List.append_assoc]
  have eA3p : "from ".data ++ a ++ ".".data =
      "from".data ++ ' ' :: (a ++ ['.']) := by
    simp [List.append_assoc]
  have eA3r : "from ".data ++ (pre ++ '.' :: a) ++ ".".data =
      "from".data ++ ' ' :: (pre ++ '.' :: (a ++ ['.'])) := by
    simp [List.append_assoc]
  have eB1p : "import ".data ++ b ++ " ".data =
      "import".data ++ ' ' :: (b ++ [' ']) := by
    simp [List.append_assoc]
  have eB1r : "import ".data ++ (pre ++ '.' :: b) ++ " ".data =
      "import".data ++ ' ' :: (pre ++ '.' :: (b ++ [' '])) := by
    simp [List.append_assoc]
  have eB2p : "import ".data ++ b ++ ".".data =
      "import".data ++ ' ' :: (b ++ ['.']) := by
    simp [List.append_assoc]
  have eB2r : "import ".data ++ (pre ++ '.' :: b) ++ ".".data =
      "import".data ++ ' ' :: (pre ++ '.' :: (b ++ ['.'])) := by
    simp [List.append_assoc]
  have eB3p : "from ".data ++ b ++ ".".data =
      "from".data ++ ' ' :: (b ++ ['.']) := by
    simp [List.append_assoc]
  have eB3r : "from ".data ++ (pre ++ '.' :: b) ++ ".".data =
      "from".data ++ ' ' :: (pre ++ '.' :: (b ++ ['.'])) := by
    simp [List.append_assoc]
  simp only [applyLib, libChanges, applyChange, List.foldl_cons, List.foldl_nil]
  rw [eA1p, eA1r, eA2p, eA2r, eA3p, eA3r, eB1p, eB1r, eB2p, eB2r, eB3p, eB3r]
  simp only [c11, c12, c13, c21, c22, c23, c31, c32, c33]

theorem fix_all_imports_foldl (np op : List Char → List Char) :
    ∀ (libs : List (List Char)) (t : List Char),
      fix_all_imports t libs np op = libs.foldl (applyLib np op) t := by
  intro libs
  induction libs with
  | nil => intro t; rfl
  | cons lib rest ih =>
    intro t
    unfold fix_all_imports
    rw [List.flatMap_cons, List.foldl_append]
    exact ih _

/-- C1 (amended): when the namespace prefix and all library names are
nonempty space/dot-free identifiers, no library name equals the prefix, and
no library name ends with the pattern keywords `import` or `from`, the result
of `_fix_all_imports` is the same for any two processing orders of the same
library set.  (The counterexample shows the restriction is necessary: a
library name equal to the prefix makes the replacement text of other
libraries match its own patterns, and then the order matters.) -/
theorem c1_order_invariant_amended (pre text : List Char)
    (libs1 libs2 : List (List Char)) (hpre : IsIdent pre)
    (hgood : ∀ lib ∈ libs1, GoodLib pre lib)
    (hperm : libs1.Perm libs2) :
    fixImportsWithPre pre libs1 text = fixImportsWithPre pre libs2 text := by
  unfold fixImportsWithPre
  rw [fix_all_imports_foldl, fix_all_imports_foldl]
  apply hperm.foldl_eq'
  intro x hx y hy z
  by_cases hxy : x = y
  · subst hxy
    rfl
  · exact applyLib_comm hpre (hgood x hx) (hgood y hy) hxy z

/-- Witness for C1 (amended) at the prefix `ns` and the library set
containing `foo` and `bar`, in both orders. -/
theorem c1_order_invariant_amended_witness :
    IsIdent "ns".data ∧
    (∀ lib ∈ ["foo".data, "bar".data], GoodLib "ns".data lib) ∧
    ["foo".data, "bar".data].Perm ["bar".data, "foo".data] ∧
    fixImportsWithPre "ns".data ["foo".data, "bar".data]
        "import foo.x\nfrom bar.y import z\n".data =
      fixImportsWithPre "ns".data ["bar".data, "foo".data]
        "import foo.x\nfrom bar.y import z\n".data :=
  ⟨by decide, by decide, by decide,
   c1_order_invariant_amended "ns".data
     "import foo.x\nfrom bar.y import z\n".data
     ["foo".data, "bar".data] ["bar".data, "foo".data]
     (by decide) (by decide) (by decide)⟩
